import Mathlib

/-!
# Bulk construction of front-coded dictionary pages

A shallow embedding of `DynamicPage<TPrefixSize>::Loader` (`src/include/DynamicPage.hpp`):
the partition boundary search `findBlock`, the size computation `getPageSize`, the
page writer `createPage` and the bulk loader `load`; and, further down, of the dictionary
`MARTDictionary` (`src/MARTDictionary.cpp`): `insert`, `bulkInsert` and `lookup`.

Conventions of the embedding.

* A `std::string` is the list of its bytes; a byte is a `Fin 256`.
* A `std::pair<page::IdType, std::string>*` is the list of the entries that start at
  the pointer, so `&values[start]` is `values.drop start`.
* `size_t` and `uint64_t` quantities are natural numbers (a batch that exists in memory
  has fewer than `2^64` entries and bytes); the 16-bit position counter of `createPage`
  wraps explicitly.
* A run can go wrong in three ways, each a `Fault`: a read out of bounds (`s[p]` with
  `p > s.size()`, or `values[i]` past the batch), a failing DEBUG `assert`, and an
  exhausted iteration budget of a loop of the embedding.
* Whether plain `char` is a signed type is a property of the target; it is the field
  `signedChar` of `Target`, next to the `sizeof` of the field types of `Page.hpp`.
-/

namespace DynamicPage

/-- One byte of a string. -/
abbrev Byte := Fin 256

/-- The bytes of a `std::string`. -/
abbrev Str := List Byte

/-- A `std::pair<page::IdType, std::string>`. -/
abbrev Entry := Nat × Str

/-- The ways an execution can leave defined behaviour. -/
inductive Fault where
  /-- `s[p]` with `p > s.size()`, or `values[i]` past the end of the batch -/
  | outOfBounds
  /-- a DEBUG `assert` that fails -/
  | assertion
  /-- the iteration budget of a loop of the embedding is used up -/
  | outOfFuel
  deriving DecidableEq, Repr

/-- What the build target fixes: the signedness of plain `char` and the `sizeof` of the
field types declared in `Page.hpp`. -/
structure Target where
  /-- plain `char` is a signed type -/
  signedChar : Bool
  /-- `sizeof(uintptr_t)` -/
  ptrSize : Nat
  /-- `sizeof(page::HeaderType)` -/
  headerSize : Nat
  /-- `sizeof(page::IdType)` -/
  idSize : Nat
  /-- `sizeof(page::PrefixSizeType)` -/
  prefixSizeSize : Nat
  /-- `sizeof(page::StringSizeType)` -/
  stringSizeSize : Nat
  deriving DecidableEq, Repr

/-- The value of `s[p]` for a `std::string`: the byte at `p`, the terminator at
`p = s.size()`, undefined further out. -/
def charAt (s : Str) (p : Nat) : Except Fault Byte :=
  if p < s.length then pure (s.getD p 0)
  else if p = s.length then pure 0
  else throw Fault.outOfBounds

/-- The expression `values[i].second[p]`. -/
def readChar (values : List Entry) (i p : Nat) : Except Fault Byte :=
  match values[i]? with
  | some e => charAt e.2 p
  | none => throw Fault.outOfBounds

/-- The value of a plain `char` after integral promotion. -/
def charToInt (t : Target) (c : Byte) : Int :=
  if t.signedChar && decide (128 ≤ c.val) then (c.val : Int) - 256 else (c.val : Int)

/-- The comparison `values[middle].second[prefixPos] == searchChar` of a plain `char`
with a `uint8_t`: both operands are promoted to `int`. -/
def charEqU8 (t : Target) (c : Byte) (searchChar : Byte) : Bool :=
  decide (charToInt t c = (searchChar.val : Int))

/-- The `while (start < end)` loop of `findBlock`; the state, and the result at loop exit,
is `(start, end, biggestFound, endOfString)`. -/
def findBlockLoop (t : Target) (searchChar : Byte) (prefixPos : Nat) (values : List Entry) :
    Nat → Nat → Nat → Nat → Bool → Except Fault (Nat × Nat × Nat × Bool)
  | fuel, start, end_, biggestFound, endOfString =>
    if start < end_ then
      match fuel with
      | 0 => throw Fault.outOfFuel
      | fuel + 1 =>
        let middle := (end_ + start) / 2
        match readChar values middle prefixPos with
        | .error f => throw f
        | .ok c =>
          if charEqU8 t c searchChar then
            if middle ≥ biggestFound then
              findBlockLoop t searchChar prefixPos values fuel (middle + 1) end_ middle
                endOfString
            else throw Fault.assertion
          else
            findBlockLoop t searchChar prefixPos values fuel start middle biggestFound
              (if c = 0 then true else endOfString)
    else pure (start, end_, biggestFound, endOfString)

/-- `findBlock(searchChar, prefixPos, size, values, endOfString)`: the returned index and
the final value of the reference parameter `endOfString`.  With `size = 0` the unsigned
`size-1` wraps and the first probe is far past the batch. -/
def findBlock (t : Target) (searchChar : Byte) (prefixPos size : Nat) (values : List Entry)
    (endOfString : Bool) : Except Fault (Nat × Bool) :=
  if size = 0 then throw Fault.outOfBounds
  else
    match findBlockLoop t searchChar prefixPos values size 0 (size - 1) 0 endOfString with
    | .error f => throw f
    | .ok (start, _, biggestFound, eos) =>
      match readChar values start prefixPos with
      | .error f => throw f
      | .ok c =>
        if !(charEqU8 t c searchChar) then pure (biggestFound, eos)
        else pure (start, eos)

/-! ## The helpers of `page::Loader` (`Page.hpp`) -/

/-- The entry markers a page carries. -/
inductive Header where
  | startOfPrefix
  | startOfDelta
  | endOfPage
  deriving DecidableEq, Repr

/-- One field written behind the link of a page. -/
inductive Field where
  /-- a `HeaderType` marker -/
  | header (h : Header)
  /-- an `IdType` identifier -/
  | id (v : Nat)
  /-- a `PrefixSizeType` shared-prefix length -/
  | prefixSize (n : Nat)
  /-- a `StringSizeType` length -/
  | stringSize (n : Nat)
  /-- raw string bytes -/
  | chars (s : Str)
  deriving DecidableEq, Repr

/-- Number of bytes a field occupies. -/
def Field.width (t : Target) : Field → Nat
  | .header _ => t.headerSize
  | .id _ => t.idSize
  | .prefixSize _ => t.prefixSizeSize
  | .stringSize _ => t.stringSizeSize
  | .chars s => s.length

/-- The buffer under construction: the link at its start, the fields written behind it
and the write cursor `dataPtr` as an offset from the buffer start. -/
structure Writer where
  nextPage : Option Nat
  data : List Field
  dataPtr : Nat
  deriving DecidableEq, Repr

/-- Append one field at the cursor. -/
def Writer.put (t : Target) (w : Writer) (f : Field) : Writer :=
  { w with data := w.data ++ [f], dataPtr := w.dataPtr + f.width t }

/-- Modelled from the spec: `page::write<uintptr_t>(dataPtr, 0L)`, absent from the sources,
emits the empty next-page link at the buffer start. -/
def writeLink (t : Target) (w : Writer) : Writer :=
  { w with nextPage := none, dataPtr := w.dataPtr + t.ptrSize }

/-- Modelled from the spec: `startPrefix`, absent from the sources, emits the header of the
anchor entry and returns the offset at which the entry's payload begins. -/
def startPrefix (t : Target) (w : Writer) : Writer × Nat :=
  let w1 := w.put t (.header .startOfPrefix)
  (w1, w1.dataPtr)

/-- Modelled from the spec: `startDelta`, absent from the sources, emits the header of a
delta entry and returns the offset at which the entry's payload begins. -/
def startDelta (t : Target) (w : Writer) : Writer × Nat :=
  let w1 := w.put t (.header .startOfDelta)
  (w1, w1.dataPtr)

/-- Modelled from the spec: `writeId`, absent from the sources, emits an identifier. -/
def writeId (t : Target) (w : Writer) (id : Nat) : Writer :=
  w.put t (.id id)

/-- Modelled from the spec: `writeValue`, absent from the sources, emits a string as its
length followed by its bytes. -/
def writeValue (t : Target) (w : Writer) (s : Str) : Writer :=
  (w.put t (.stringSize s.length)).put t (.chars s)

/-- Modelled from the spec: `writeDelta`, absent from the sources, emits the shared-prefix
length followed by the suffix (length and bytes). -/
def writeDelta (t : Target) (w : Writer) (deltaValue : Str) (prefixSize : Nat) : Writer :=
  writeValue t (w.put t (.prefixSize prefixSize)) deltaValue

/-- Modelled from the spec: `endPage`, absent from the sources, emits the end-of-page
marker. -/
def endPage (t : Target) (w : Writer) : Writer :=
  w.put t (.header .endOfPage)

/-- Length of the shared leading-byte run of two strings. -/
def commonPrefixLen : Str → Str → Nat
  | a :: as, b :: bs => if a = b then commonPrefixLen as bs + 1 else 0
  | _, _ => 0

/-- Modelled from the spec: the delta encoder `delta(ref, value, prefixSize)`, absent from
the sources, returns the suffix `value[L:]` and sets `prefixSize` to the length `L` of the
shared leading-byte run of `ref` and `value`. -/
def delta (ref value : Str) : Str × Nat :=
  (value.drop (commonPrefixLen ref value), commonPrefixLen ref value)

/-- One invocation of the callback: the page reference, the position within the page, the
payload offset, the identifier and the string; `written` is the content of the page buffer
at the moment of the call. -/
structure Call where
  page : Nat
  deltaNumber : Nat
  valuePtr : Nat
  id : Nat
  value : Str
  written : List Field
  deriving DecidableEq, Repr

/-- A finished page: the link, the fields behind it, the allocated size `pageSize` and the
final offset of the write cursor. -/
structure Page where
  nextPage : Option Nat
  data : List Field
  pageSize : Nat
  written : Nat
  deriving DecidableEq, Repr

/-! ## The page writer -/

/-- The expression `values[i]` on an entry pointer. -/
def entryAt (values : List Entry) (i : Nat) : Except Fault Entry :=
  match values[i]? with
  | some e => pure e
  | none => throw Fault.outOfBounds

/-- `getPageSize(size, values)`; `createPage` calls it behind its assertion `size > 0`. -/
def getPageSize (t : Target) (size : Nat) (values : List Entry) : Except Fault Nat := do
  let v0 ← entryAt values 0
  let pageSize := t.ptrSize
  let pageSize := pageSize + (t.headerSize + t.idSize + t.stringSizeSize + v0.2.length)
  let pageSize := pageSize
    + (size - 1) * (t.headerSize + t.idSize + t.prefixSizeSize + t.stringSizeSize)
  let pageSize ← (List.range' 1 (size - 1)).foldlM
    (fun pageSize i => do
      let vi ← entryAt values i
      let deltaValue := (delta v0.2 vi.2).1
      pure (pageSize + deltaValue.length))
    pageSize
  pure (pageSize + t.headerSize)

/-- The state of `createPage` while it writes: the buffer, the 16-bit counter
`deltaNumber` and the callback invocations so far. -/
structure Build where
  w : Writer
  deltaNumber : Nat
  calls : List Call
  deriving DecidableEq, Repr

/-- The body of the delta loop of `createPage` for the index `i`. -/
def deltaStep (t : Target) (addr : Nat) (values : List Entry) (anchor : Str)
    (b : Build) (i : Nat) : Except Fault Build := do
  let (w1, valuePtr) := startDelta t b.w
  let vi ← entryAt values i
  let (deltaValue, prefixSize) := delta anchor vi.2
  let w2 := writeId t w1 vi.1
  let w3 := writeDelta t w2 deltaValue prefixSize
  pure { w := w3
         deltaNumber := (b.deltaNumber + 1) % 65536
         calls := b.calls ++ [⟨addr, b.deltaNumber, valuePtr, vi.1, vi.2, w3.data⟩] }

/-- `createPage(size, values, callback)`; `addr` is the address `new char[pageSize]`
returns.  The result is the page and the callback invocations in the order made; the
increment of the static `counter` is recorded by the caller, in `LoadState.counter`. -/
def createPage (t : Target) (addr size : Nat) (values : List Entry) :
    Except Fault (Page × List Call) := do
  if size > 0 then
    let pageSize ← getPageSize t size values
    let deltaNumber := 0
    let w : Writer := ⟨none, [], 0⟩
    let w := writeLink t w
    let (w, valuePtr) := startPrefix t w
    let v0 ← entryAt values 0
    let calls := [(⟨addr, deltaNumber, valuePtr, v0.1, v0.2, w.data⟩ : Call)]
    let deltaNumber := (deltaNumber + 1) % 65536
    let w := writeId t w v0.1
    let w := writeValue t w v0.2
    let b ← (List.range' 1 (size - 1)).foldlM (deltaStep t addr values v0.2)
      ⟨w, deltaNumber, calls⟩
    let w := endPage t b.w
    pure (⟨w.nextPage, w.data, pageSize, w.dataPtr⟩, b.calls)
  else throw Fault.assertion

/-! ## The bulk loader -/

/-- The `for (searchPos = 0; searchPos < TPrefixSize && !endOfString; searchPos++)` loop of
`load`; the state is `(searchPos, end, endOfString)`, the result the final `end`. -/
def searchLoop (t : Target) (K : Nat) (values : List Entry) (start : Nat) :
    Nat → Nat → Nat → Bool → Except Fault Nat
  | fuel, searchPos, end_, endOfString =>
    if searchPos < K && !endOfString then
      match fuel with
      | 0 => throw Fault.outOfFuel
      | fuel + 1 =>
        match readChar values start searchPos with
        | .error f => throw f
        | .ok searchChar =>
          if searchChar = 0 then pure end_
          else
            match findBlock t searchChar searchPos (end_ - start + 1) (values.drop start)
                endOfString with
            | .error f => throw f
            | .ok (r, eos) => searchLoop t K values start fuel (searchPos + 1) (start + r) eos
    else pure end_

/-- What `load` has produced: the pages by address (address `i` is the `i`-th page
allocated), the callback invocations in order, the page counter, and the inclusive ranges
`(start, end)` of the iterations of the outer loop in order. -/
structure LoadState where
  heap : List Page
  calls : List Call
  counter : Nat
  runs : List (Nat × Nat)
  deriving DecidableEq, Repr

/-- The assignment `lastPage->nextPage = currentPage`. -/
def setNextPage (heap : List Page) (lastPage currentPage : Nat) : List Page :=
  heap.modify (fun p => { p with nextPage := some currentPage }) lastPage

/-- The statement `if (lastPage != nullptr) lastPage->nextPage = currentPage;`. -/
def linkPage (heap : List Page) (lastPage : Option Nat) (currentPage : Nat) : List Page :=
  match lastPage with
  | some l => setNextPage heap l currentPage
  | none => heap

/-- The `do ... while (end < size-1)` loop of `load`; the state is `(start, lastPage)` and
what has been produced so far. -/
def loadLoop (t : Target) (K : Nat) (values : List Entry) :
    Nat → Nat → Option Nat → LoadState → Except Fault LoadState
  | 0, _, _, _ => throw Fault.outOfFuel
  | fuel + 1, start, lastPage, st => do
    let size := values.length
    let end_ ← searchLoop t K values start K 0 (size - 1) false
    let currentPage := st.heap.length
    let (page, calls) ← createPage t currentPage (end_ - start + 1) (values.drop start)
    let heap := st.heap ++ [page]
    let heap := linkPage heap lastPage currentPage
    let st1 : LoadState :=
      ⟨heap, st.calls ++ calls, st.counter + 1, st.runs ++ [(start, end_)]⟩
    let start1 := if start = end_ then start + 1 else end_ + 1
    if end_ < size - 1 then loadLoop t K values fuel start1 (some currentPage) st1
    else pure st1

/-- `load(values, callback)` with `TPrefixSize = K`, started with `counter` pages built
before.  On an empty batch `size-1` wraps and `values[0]` is read past the end. -/
def load (t : Target) (K : Nat) (values : List Entry) (counter : Nat) :
    Except Fault LoadState :=
  if values.length = 0 then throw Fault.outOfBounds
  else loadLoop t K values values.length 0 none ⟨[], [], counter, []⟩

/-! ## Reading a page chain back -/

/-- The delta entries of a page up to the end-of-page marker, each rebuilt as the first
`l` bytes of the anchor followed by the stored suffix. -/
def decodeDeltas (anchor : Str) : List Field → Option (List Entry)
  | [.header .endOfPage] => some []
  | .header .startOfDelta :: .id v :: .prefixSize l :: .stringSize n :: .chars s :: rest =>
    if n = s.length then
      match decodeDeltas anchor rest with
      | some es => some ((v, anchor.take l ++ s) :: es)
      | none => none
    else none
  | _ => none

/-- The entries of a page: the anchor's identifier and literal string, then the deltas. -/
def decodePage (p : Page) : Option (List Entry) :=
  match p.data with
  | .header .startOfPrefix :: .id v :: .stringSize n :: .chars s :: rest =>
    if n = s.length then
      match decodeDeltas s rest with
      | some es => some ((v, s) :: es)
      | none => none
    else none
  | _ => none

/-- The addresses met when following the next-page links from `cur`, for at most `fuel`
pages; `none` when a link leaves the heap or the budget is used up before an empty link. -/
def walk (heap : List Page) : Nat → Option Nat → Option (List Nat)
  | _, none => some []
  | 0, some _ => none
  | fuel + 1, some a =>
    match heap[a]? with
    | none => none
    | some p =>
      match walk heap fuel p.nextPage with
      | some as => some (a :: as)
      | none => none

/-- The entries of the chain that starts at the first page built (address `0`), page after
page in link order. -/
def decodeChain (heap : List Page) : Option (List Entry) :=
  match walk heap heap.length (if heap.length = 0 then none else some 0) with
  | none => none
  | some as =>
    as.foldr
      (fun a acc =>
        match heap[a]?, acc with
        | some p, some es =>
          match decodePage p with
          | some ps => some (ps ++ es)
          | none => none
        | _, _ => none)
      (some [])

/-- Lexicographic order on strings by unsigned byte value, a proper prefix first: the order
of `std::string::operator<`. -/
def strLt : Str → Str → Bool
  | [], [] => false
  | [], _ :: _ => true
  | _ :: _, [] => false
  | a :: as, b :: bs => decide (a < b) || (decide (a = b) && strLt as bs)

/-- The batch is sorted by string and its strings are pairwise distinct. -/
def SortedBatch (values : List Entry) : Prop :=
  values.Pairwise (fun x y => strLt x.2 y.2 = true)

instance (values : List Entry) : Decidable (SortedBatch values) := by
  unfold SortedBatch; infer_instance

/-! ## Auxiliary definitions used in the statements -/

/-- The fields `createPage` writes for the anchor entry. -/
def anchorFields (e : Entry) : List Field :=
  [.header .startOfPrefix, .id e.1, .stringSize e.2.length, .chars e.2]

/-- The fields `createPage` writes for one delta entry. -/
def deltaFields (anchor : Str) (e : Entry) : List Field :=
  [.header .startOfDelta, .id e.1, .prefixSize (delta anchor e.2).2,
    .stringSize (delta anchor e.2).1.length, .chars (delta anchor e.2).1]

/-- Total number of bytes of a list of fields. -/
def widthSum (t : Target) (fs : List Field) : Nat := (fs.map (Field.width t)).sum

/-- The fields of a list of delta entries, in order. -/
def encodeDeltas (anchor : Str) : List Entry → List Field
  | [] => []
  | e :: es => deltaFields anchor e ++ encodeDeltas anchor es

/-- Total length of the suffixes of a list of delta entries. -/
def suffixBytes (anchor : Str) : List Entry → Nat
  | [] => 0
  | e :: es => (delta anchor e.2).1.length + suffixBytes anchor es

/-- The size `getPageSize` computes for a page with the given anchor and deltas. -/
def pageBytes (t : Target) (anchor : Entry) (deltas : List Entry) : Nat :=
  t.ptrSize + (t.headerSize + t.idSize + t.stringSizeSize + anchor.2.length)
    + deltas.length * (t.headerSize + t.idSize + t.prefixSizeSize + t.stringSizeSize)
    + suffixBytes anchor.2 deltas + t.headerSize

/-- What holds of the state of `createPage` once the entries `0 .. i-1` are written. -/
structure BuildInv (t : Target) (addr : Nat) (values : List Entry) (anchor : Entry)
    (i : Nat) (b : Build) : Prop where
  link : b.w.nextPage = none
  data : b.w.data = anchorFields anchor ++ encodeDeltas anchor.2 ((values.take i).drop 1)
  ptr : b.w.dataPtr = t.ptrSize + widthSum t b.w.data
  num : b.deltaNumber = i % 65536
  entries : b.calls.map (fun c => (c.id, c.value)) = values.take i
  positions : b.calls.map (fun c => c.deltaNumber) = (List.range i).map (fun j => j % 65536)
  pages : ∀ c ∈ b.calls, c.page = addr

/-- The entry at index `i` is read at offset `p` and compares equal to `searchChar`. -/
def Matches (t : Target) (sc : Byte) (p : Nat) (values : List Entry) (i : Nat) : Prop :=
  ∃ c, readChar values i p = .ok c ∧ charEqU8 t c sc = true

/-- `a` sorts before `x` or is `x`. -/
def strLe (a x : Str) : Prop := strLt a x = true ∨ a = x

/-- Number of bytes of a string before its first zero byte: the `strlen` of its `c_str()`. -/
def cLen : Str → Nat
  | [] => 0
  | c :: cs => if c = 0 then 0 else cLen cs + 1

/-- Plain `char` compares as its byte value: the target has an unsigned `char`, or no string
of the batch has a byte above `0x7f`. -/
def LowBytes (t : Target) (values : List Entry) : Prop :=
  t.signedChar = false ∨ ∀ e ∈ values, ∀ b ∈ e.2, b.val < 128

/-- What holds in the offset loop of `load` on a sorted batch, at offset `pos` with
candidate end `e`: the run `[start, e]` shares the first `pos` bytes of the anchor `A`,
`endOfString` is not raised, and (when `char` compares as its byte value) no entry
behind `e` up to `e0` shares them. -/
structure SearchInv (t : Target) (K : Nat) (values : List Entry) (start e0 : Nat) (A : Entry)
    (pos e : Nat) (eos : Bool) : Prop where
  lo : start ≤ e
  hi : e ≤ e0
  posK : pos ≤ K
  posLen : pos ≤ cLen A.2
  agree : ∀ i x, start ≤ i → i ≤ e → values[i]? = some x → x.2.take pos = A.2.take pos
  eos : eos = false
  maximal : LowBytes t values → ∀ i x, e < i → i ≤ e0 → values[i]? = some x →
    x.2.take pos ≠ A.2.take pos

/-- The entries of the inclusive index range `run` of the batch. -/
def runEntries (values : List Entry) (run : Nat × Nat) : List Entry :=
  (values.drop run.1).take (run.2 - run.1 + 1)

/-- The fields behind the link of a page that holds the given entries. -/
def pageData : List Entry → List Field
  | [] => []
  | a :: ds => anchorFields a ++ encodeDeltas a.2 ds ++ [Field.header Header.endOfPage]

/-- `runs` are non-empty inclusive index ranges that follow one another from `s` and stop
right before `e`. -/
def Consecutive : Nat → List (Nat × Nat) → Nat → Prop
  | s, [], e => s = e
  | s, (a, b) :: rest, e => a = s ∧ a ≤ b ∧ Consecutive (b + 1) rest e

/-- The page `createPage` builds at address `addr` for the range `run`, with its link set
to `next`. -/
def builtPage (t : Target) (values : List Entry) (addr : Nat) (run : Nat × Nat)
    (next : Option Nat) : Page :=
  match createPage t addr (run.2 - run.1 + 1) (values.drop run.1) with
  | .ok (p, _) => { p with nextPage := next }
  | .error _ => ⟨next, [], 0, 0⟩

/-- The callback invocations `createPage` makes at address `addr` for the range `run`. -/
def pageCalls (t : Target) (values : List Entry) (addr : Nat) (run : Nat × Nat) : List Call :=
  match createPage t addr (run.2 - run.1 + 1) (values.drop run.1) with
  | .ok (_, cs) => cs
  | .error _ => []

/-- The callback invocations of the pages built for `runs` at the addresses from `addr`. -/
def callsOf (t : Target) (values : List Entry) : Nat → List (Nat × Nat) → List Call
  | _, [] => []
  | addr, run :: runs => pageCalls t values addr run ++ callsOf t values (addr + 1) runs

/-- What holds of the state of `load` when the cursor is at `start`: the ranges built so
far cover the entries before `start`, each range is what the offset loop returned, and
the heap, the callback trace and the counter are those of the pages of these ranges,
each page linked to the next one and the last link empty. -/
structure LoadInv (t : Target) (K : Nat) (values : List Entry) (c0 : Nat) (start : Nat)
    (lastPage : Option Nat) (st : LoadState) : Prop where
  runs : Consecutive 0 st.runs start
  search : ∀ run ∈ st.runs,
    searchLoop t K values run.1 K 0 (values.length - 1) false = .ok run.2
  len : st.heap.length = st.runs.length
  last : lastPage = if st.runs.length = 0 then none else some (st.runs.length - 1)
  counter : st.counter = c0 + st.runs.length
  heap : ∀ i run, st.runs[i]? = some run → st.heap[i]? = some
    (builtPage t values i run (if i + 1 < st.runs.length then some (i + 1) else none))
  calls : st.calls = callsOf t values 0 st.runs

/-- What `createPage` returns for `size` entries at address `addr`: the link is empty, the
fields are those of the entries, the size is the one `getPageSize` computes and equals
the final cursor offset, and the callback is invoked once per entry, in order, with the
16-bit position counter. -/
structure PageBuilt (t : Target) (addr size : Nat) (values : List Entry) (page : Page)
    (calls : List Call) : Prop where
  link : page.nextPage = none
  data : page.data = pageData (values.take size)
  computed : getPageSize t size values = .ok page.pageSize
  written : page.written = page.pageSize
  bytes : page.written = t.ptrSize + widthSum t page.data
  entries : calls.map (fun c => (c.id, c.value)) = values.take size
  positions : calls.map (fun c => c.deltaNumber) = (List.range size).map (fun j => j % 65536)
  pages : ∀ c ∈ calls, c.page = addr

/-- A target with a signed plain `char` (the x86-64 System V ABI).  The sizes of the field
types of `Page.hpp` are not in the sources; the values here only serve to evaluate
examples and play no role in any result. -/
def signedTarget : Target := ⟨true, 8, 1, 8, 2, 8⟩

/-- A target with an unsigned plain `char` (the AArch64 Linux ABI), sizes as for
`signedTarget`. -/
def unsignedTarget : Target := ⟨false, 8, 1, 8, 2, 8⟩

/-- The batch `apple`, `apply`, `apt` with the identifiers `0, 1, 2`. -/
def appleBatch : List Entry :=
  [(0, [97, 112, 112, 108, 101]), (1, [97, 112, 112, 108, 121]), (2, [97, 112, 116])]

/-- A run of 65537 sorted, pairwise distinct strings that share their first byte:
`a`, `aa`, `aaa`, ... with the identifiers `0, 1, 2, ...`. -/
def longRun : List Entry :=
  (List.range 65537).map (fun i => (i, List.replicate (i + 1) (97 : Byte)))

/-- The batch `a`, `ab`, `ac` with the identifiers `0, 1, 2`. -/
def shortBatch : List Entry := [(0, [97]), (1, [97, 98]), (2, [97, 99])]

/-- The batch `apple`, `banana`, `cherry` with the identifiers `0, 1, 2`. -/
def fruitBatch : List Entry :=
  [(0, [97, 112, 112, 108, 101]), (1, [98, 97, 110, 97, 110, 97]),
    (2, [99, 104, 101, 114, 114, 121])]

/-- The two UTF-8 strings `é` (`c3 a9`) and `ü` (`c3 bc`) with the identifiers `0, 1`. -/
def accentBatch : List Entry := [(0, [195, 169]), (1, [195, 188])]

/-- The states `(start, end, biggestFound, endOfString)` the loop of
`findBlock(searchChar, prefixPos, size, values, endOfString)` goes through: the state at
entry, and after a matching or a non-matching probe of a state with `start < end`. -/
inductive FindReach (t : Target) (sc : Byte) (p size : Nat) (values : List Entry)
    (eos0 : Bool) : Nat → Nat → Nat → Bool → Prop where
  | init : FindReach t sc p size values eos0 0 (size - 1) 0 eos0
  | hit {s e b : Nat} {eos : Bool} {c : Byte} :
      FindReach t sc p size values eos0 s e b eos → s < e →
      readChar values ((e + s) / 2) p = .ok c → charEqU8 t c sc = true →
      FindReach t sc p size values eos0 ((e + s) / 2 + 1) e ((e + s) / 2) eos
  | miss {s e b : Nat} {eos : Bool} {c : Byte} :
      FindReach t sc p size values eos0 s e b eos → s < e →
      readChar values ((e + s) / 2) p = .ok c → charEqU8 t c sc = false →
      FindReach t sc p size values eos0 s ((e + s) / 2) b (if c = 0 then true else eos)

/-- The states `(searchPos, end, endOfString)` the offset loop of `load` goes through with
the cursor at `start`: the state at entry, and the state after each call of `findBlock`,
made from a state that passes the loop test with an anchor byte that is not the
terminator. -/
inductive SearchReach (t : Target) (K : Nat) (values : List Entry) (start : Nat) :
    Nat → Nat → Bool → Prop where
  | init : SearchReach t K values start 0 (values.length - 1) false
  | step {pos e r : Nat} {eos eos' : Bool} {c : Byte} :
      SearchReach t K values start pos e eos → pos < K → eos = false →
      readChar values start pos = .ok c → c ≠ 0 →
      findBlock t c pos (e - start + 1) (values.drop start) eos = .ok (r, eos') →
      SearchReach t K values start (pos + 1) (start + r) eos'

/-- The sorted batch of the two strings `61 00 62` and `61 00 63`, each with a zero byte
at offset `1`, with the identifiers `0, 1`. -/
def nulBatch : List Entry := [(0, [97, 0, 98]), (1, [97, 0, 99])]

/-- The sorted batch of the two strings `61 00` and `61 01` with the identifiers `0, 1`. -/
def nulShortBatch : List Entry := [(0, [97, 0]), (1, [97, 1])]

/-- The batch of the empty string and `a` with the identifiers `0, 1`. -/
def emptyFirstBatch : List Entry := [(0, []), (1, [97])]

/-- What holds of the callback invocations of `createPage` once the entries `0 .. i-1` are
written: the first one, for the anchor, was made when the buffer held the anchor's header
only; every later one, for a delta entry, was made when the buffer ended with the fields
of that entry. -/
structure SnapInv (t : Target) (anchor : Entry) (b : Build) : Prop where
  ptr : b.w.dataPtr = t.ptrSize + widthSum t b.w.data
  calls : ∃ c0 rest, b.calls = c0 :: rest
    ∧ c0.written = [Field.header Header.startOfPrefix]
    ∧ c0.valuePtr = t.ptrSize + t.headerSize
    ∧ (c0.id, c0.value) = anchor
    ∧ ∀ c ∈ rest, ∃ pre, c.written = pre ++ deltaFields anchor.2 (c.id, c.value)
        ∧ c.valuePtr = t.ptrSize + widthSum t pre + t.headerSize

end DynamicPage

/-! ## The dictionary `MARTDictionary` -/

/-- Modelled from the spec: the classes of the forward index `index` (identifier to
string) and of the reverse index `reverseIndex` (string to identifier) are not in the
sources; each is a finite map, kept as the list of its bindings, the most recent first.
The structure holds the members of `class MARTDictionary` that `src/MARTDictionary.cpp`
uses; `nextId` is the `uint64_t` identifier counter, a natural number here (it cannot
reach `2^64` by insertions). -/
structure MARTDictionary where
  index : List (Nat × DynamicPage.Str)
  reverseIndex : List (DynamicPage.Str × Nat)
  nextId : Nat
  deriving DecidableEq, Repr

namespace MARTDictionary

open DynamicPage (Str Fault)

/-- Modelled from the spec: `lookup(key, value)` of an index, absent from the sources:
the value bound to the key, if any (`none` stands for the result `false`). -/
def mapLookup {α β : Type} [DecidableEq α] (k : α) : List (α × β) → Option β
  | [] => none
  | (k', v) :: rest => if k = k' then some v else mapLookup k rest

/-- Modelled from the spec: `insert(key, value)` of an index, absent from the sources:
binds the key to the value. -/
def mapInsert {α β : Type} (k : α) (v : β) (m : List (α × β)) : List (α × β) :=
  (k, v) :: m

/-- A dictionary as constructed: both indexes empty, `nextId = 0`. -/
def empty : MARTDictionary := ⟨[], [], 0⟩

/-- `MARTDictionary::insert(value)`: the returned identifier and the dictionary after
the call. -/
def insert (d : MARTDictionary) (value : Str) : Nat × MARTDictionary :=
  match mapLookup value d.reverseIndex with
  | none =>
    -- String not in dictionary
    let reverseIndex := mapInsert value d.nextId d.reverseIndex
    let index := mapInsert d.nextId value d.index
    (d.nextId, ⟨index, reverseIndex, d.nextId + 1⟩)
  | some id => (id, d)

/-- `MARTDictionary::lookup(value, id)`: the identifier of a string, `none` for `false`. -/
def lookup (d : MARTDictionary) (value : Str) : Option Nat :=
  mapLookup value d.reverseIndex

/-- `MARTDictionary::lookup(id, value)`, the overload on identifiers: the string of an
identifier, `none` for `false`. -/
def lookupId (d : MARTDictionary) (id : Nat) : Option Str :=
  mapLookup id d.index

/-- The first loop of `bulkInsert`: `insertValues.push_back(make_pair(nextId++, values[i]))`
for `i = 0 .. size-1`; the state is `(nextId, insertValues)`. -/
def collectLoop (values : List Str) (size : Nat) (nextId : Nat) :
    Except Fault (Nat × List (Nat × Str)) :=
  (List.range' 0 size).foldlM
    (fun (acc : Nat × List (Nat × Str)) i =>
      match values[i]? with
      | some v => pure (acc.1 + 1, acc.2 ++ [(acc.1, v)])
      | none => throw Fault.outOfBounds)
    (nextId, [])

/-- The second loop of `bulkInsert`: `for (; nextId < size; nextId++)
index.insert(nextId, values[nextId])`; the state is `(nextId, index)`. -/
def indexLoop (values : List Str) (size : Nat) :
    Nat → Nat → List (Nat × Str) → Except Fault (Nat × List (Nat × Str))
  | fuel, nextId, index =>
    if nextId < size then
      match fuel with
      | 0 => throw Fault.outOfFuel
      | fuel + 1 =>
        match values[nextId]? with
        | some v => indexLoop values size fuel (nextId + 1) (mapInsert nextId v index)
        | none => throw Fault.outOfBounds
    else pure (nextId, index)

/-- `MARTDictionary::bulkInsert(size, values)`: the returned flag and the dictionary after
the call.  `reverseBulkInsert` stands for `reverseIndex.bulkInsert(size, values)`, whose
class is not in the sources. -/
def bulkInsert (reverseBulkInsert : List (Str × Nat) → Nat → List Str → List (Str × Nat))
    (d : MARTDictionary) (size : Nat) (values : List Str) :
    Except Fault (Bool × MARTDictionary) :=
  if d.nextId = 0 then
    match collectLoop values size d.nextId with
    | .error f => throw f
    | .ok (nextId, _) =>
      -- TODO: loader here
      let reverseIndex := reverseBulkInsert d.reverseIndex size values
      match indexLoop values size size nextId d.index with
      | .error f => throw f
      | .ok (nextId, index) => pure (true, ⟨index, reverseIndex, nextId⟩)
  else throw Fault.assertion

/-- Modelled from the spec: a `reverseIndex.bulkInsert(size, values)` that binds
`values[i]` to the identifier `i` for `i < size`. -/
def reverseBulkInsert (m : List (Str × Nat)) (size : Nat) (values : List Str) :
    List (Str × Nat) :=
  ((values.take size).zip (List.range size)).reverse ++ m

/-- The dictionary after inserting the strings of a list one after the other. -/
def insertAll (d : MARTDictionary) (values : List Str) : MARTDictionary :=
  values.foldl (fun d v => (insert d v).2) d

/-- Every string of the reverse index is bound to an identifier below `nextId` that the
forward index binds back to the string. -/
def Consistent (d : MARTDictionary) : Prop :=
  ∀ v id, lookup d v = some id → id < d.nextId ∧ lookupId d id = some v

end MARTDictionary

namespace DynamicPage

/-! ## Lemmas -/

theorem entryAt_of_lt {values : List Entry} {i : Nat} (h : i < values.length) :
    entryAt values i = .ok values[i] := by
  simp [entryAt, List.getElem?_eq_getElem h, pure, Except.pure]

theorem entryAt_error {values : List Entry} {i : Nat} {f : Fault}
    (h : entryAt values i = .error f) : f = Fault.outOfBounds ∧ values.length ≤ i := by
  unfold entryAt at h
  cases hv : values[i]? with
  | none =>
    rw [hv] at h
    simp [throw, throwThe, MonadExceptOf.throw] at h
    exact ⟨h.symm, by simpa using hv⟩
  | some e => rw [hv] at h; simp [pure, Except.pure] at h

theorem foldlM_range'_inv {β : Type} (f : β → Nat → Except Fault β) (I : Nat → β → Prop) :
    ∀ (m s : Nat) (b : β), I s b →
      (∀ i b, s ≤ i → i < s + m → I i b → ∃ b', f b i = .ok b' ∧ I (i + 1) b') →
      ∃ b', (List.range' s m).foldlM f b = .ok b' ∧ I (s + m) b' := by
  intro m
  induction m with
  | zero => intro s b hb _; exact ⟨b, by simp [pure, Except.pure], by simpa using hb⟩
  | succ m ih =>
    intro s b hb hstep
    obtain ⟨b1, hb1, hI1⟩ := hstep s b (le_refl _) (by omega) hb
    obtain ⟨b2, hb2, hI2⟩ := ih (s + 1) b1 hI1 (fun i b hi hlt hI => hstep i b (by omega) (by omega) hI)
    refine ⟨b2, ?_, ?_⟩
    · simp only [List.range'_succ, List.foldlM_cons, hb1, bind, Except.bind]
      exact hb2
    · have : s + (m + 1) = s + 1 + m := by omega
      rw [this]; exact hI2

theorem encodeDeltas_append (anchor : Str) (xs ys : List Entry) :
    encodeDeltas anchor (xs ++ ys) = encodeDeltas anchor xs ++ encodeDeltas anchor ys := by
  induction xs with
  | nil => rfl
  | cons x xs ih => simp [encodeDeltas, ih]

theorem suffixBytes_append (anchor : Str) (xs ys : List Entry) :
    suffixBytes anchor (xs ++ ys) = suffixBytes anchor xs + suffixBytes anchor ys := by
  induction xs with
  | nil => simp [suffixBytes]
  | cons x xs ih => simp [suffixBytes, ih]; omega

theorem widthSum_append (t : Target) (xs ys : List Field) :
    widthSum t (xs ++ ys) = widthSum t xs + widthSum t ys := by
  simp [widthSum]

theorem widthSum_encodeDeltas (t : Target) (anchor : Str) (es : List Entry) :
    widthSum t (encodeDeltas anchor es)
      = es.length * (t.headerSize + t.idSize + t.prefixSizeSize + t.stringSizeSize)
        + suffixBytes anchor es := by
  induction es with
  | nil => simp [encodeDeltas, suffixBytes, widthSum]
  | cons e es ih =>
    rw [encodeDeltas, widthSum_append, ih]
    simp [deltaFields, widthSum, Field.width, suffixBytes, Nat.add_mul]
    omega

theorem take_succ_drop_one (values : List Entry) (i : Nat) (h1 : 1 ≤ i) (h : i < values.length) :
    (values.take (i + 1)).drop 1 = (values.take i).drop 1 ++ [values[i]] := by
  rw [List.take_succ, List.getElem?_eq_getElem h]
  simp only [Option.toList]
  rw [List.drop_append_of_le_length]
  simp; omega

theorem take_one_drop_one (values : List Entry) : (values.take 1).drop 1 = [] := by
  cases values <;> simp

theorem getPageSize_eq (t : Target) (size : Nat) (values : List Entry) (h0 : 0 < size)
    (hs : size ≤ values.length) :
    getPageSize t size values
      = .ok (pageBytes t values[0] ((values.take size).drop 1)) := by
  have hv0 : 0 < values.length := by omega
  unfold getPageSize
  rw [entryAt_of_lt hv0]
  simp only [bind, Except.bind]
  obtain ⟨r, hr, hI⟩ := foldlM_range'_inv
    (fun pageSize i => do
      let vi ← entryAt values i
      let deltaValue := (delta (values[0].2) vi.2).1
      pure (pageSize + deltaValue.length))
    (fun i acc => acc = t.ptrSize
      + (t.headerSize + t.idSize + t.stringSizeSize + (values[0].2).length)
      + (size - 1) * (t.headerSize + t.idSize + t.prefixSizeSize + t.stringSizeSize)
      + suffixBytes (values[0].2) ((values.take i).drop 1))
    (size - 1) 1
    (t.ptrSize + (t.headerSize + t.idSize + t.stringSizeSize + (values[0].2).length)
      + (size - 1) * (t.headerSize + t.idSize + t.prefixSizeSize + t.stringSizeSize))
    (by simp only [take_one_drop_one, suffixBytes]; omega)
    (by
      intro i b hi hlt hb
      have hil : i < values.length := by omega
      refine ⟨b + (delta (values[0].2) (values[i].2)).1.length, ?_, ?_⟩
      · simp [entryAt_of_lt hil, bind, Except.bind, pure, Except.pure]
      · show _ = _
        rw [take_succ_drop_one values i hi hil, suffixBytes_append, hb]
        simp [suffixBytes]; omega)
  simp only [bind, Except.bind] at hr
  rw [hr]
  have : 1 + (size - 1) = size := by omega
  rw [this] at hI
  have hlen : ((values.take size).drop 1).length = size - 1 := by
    simp [List.length_take, Nat.min_eq_left hs]
  simp only [pure, Except.pure, hI, pageBytes, hlen]

theorem deltaStep_eq (t : Target) (addr : Nat) (values : List Entry) (anchor : Str) (i : Nat)
    (b : Build) (hil : i < values.length) :
    deltaStep t addr values anchor b i = .ok
      { w := writeDelta t (writeId t (startDelta t b.w).1 values[i].1)
          (delta anchor values[i].2).1 (delta anchor values[i].2).2
        deltaNumber := (b.deltaNumber + 1) % 65536
        calls := b.calls ++ [⟨addr, b.deltaNumber, (startDelta t b.w).2, values[i].1,
          values[i].2, (writeDelta t (writeId t (startDelta t b.w).1 values[i].1)
          (delta anchor values[i].2).1 (delta anchor values[i].2).2).data⟩] } := by
  simp only [deltaStep, entryAt_of_lt hil, bind, Except.bind, pure, Except.pure]

theorem deltaStep_inv (t : Target) (addr : Nat) (values : List Entry) (i : Nat) (b : Build)
    (h0 : 0 < values.length)
    (hi : 1 ≤ i) (hil : i < values.length) (hb : BuildInv t addr values values[0] i b) :
    ∃ b', deltaStep t addr values (values[0].2) b i = .ok b'
      ∧ BuildInv t addr values values[0] (i + 1) b' := by
  refine ⟨_, deltaStep_eq t addr values _ i b hil, ?_⟩
  · constructor
    · simp [writeDelta, writeValue, writeId, startDelta, Writer.put, hb.link]
    · simp only [writeDelta, writeValue, writeId, startDelta, Writer.put, hb.data]
      rw [take_succ_drop_one values i hi hil, encodeDeltas_append]
      simp [encodeDeltas, deltaFields]
    · simp only [writeDelta, writeValue, writeId, startDelta, Writer.put, hb.ptr]
      simp [widthSum, Field.width]
      omega
    · simp [hb.num]
    · simp only [List.map_append, hb.entries]
      rw [List.take_succ, List.getElem?_eq_getElem hil]
      simp
    · simp only [List.map_append, hb.positions, List.range_succ, hb.num]
      simp
    · intro c hc
      simp only [List.mem_append, List.mem_singleton] at hc
      rcases hc with hc | hc
      · exact hb.pages c hc
      · rw [hc]

theorem take_eq_head_cons (values : List Entry) (size : Nat) (h0 : 0 < size)
    (hv : 0 < values.length) :
    values.take size = values[0] :: (values.take size).drop 1 := by
  cases values with
  | nil => simp at hv
  | cons v vs =>
    cases size with
    | zero => omega
    | succ n => simp

/-- With at least one entry to write and `size` entries behind the pointer, `createPage`
returns, and the page and the callback invocations are as `PageBuilt` says. -/
theorem createPage_spec (t : Target) (addr size : Nat) (values : List Entry) (h0 : 0 < size)
    (hs : size ≤ values.length) :
    ∃ page calls, createPage t addr size values = .ok (page, calls)
      ∧ PageBuilt t addr size values page calls := by
  have hv0 : 0 < values.length := by omega
  obtain ⟨b, hb, hI⟩ := foldlM_range'_inv
    (deltaStep t addr values (values[0].2))
    (BuildInv t addr values values[0])
    (size - 1) 1
    ⟨writeValue t (writeId t (startPrefix t (writeLink t ⟨none, [], 0⟩)).1 values[0].1)
        values[0].2, (0 + 1) % 65536,
      [⟨addr, 0, (startPrefix t (writeLink t ⟨none, [], 0⟩)).2, values[0].1, values[0].2,
        (startPrefix t (writeLink t ⟨none, [], 0⟩)).1.data⟩]⟩
    (by
      constructor
      · simp [writeValue, writeId, startPrefix, writeLink, Writer.put]
      · rw [take_one_drop_one]
        simp [writeValue, writeId, startPrefix, writeLink, Writer.put,
          encodeDeltas, anchorFields]
      · simp [writeValue, writeId, startPrefix, writeLink, Writer.put, widthSum, Field.width]
        omega
      · simp
      · cases values with
        | nil => simp at hv0
        | cons v vs => simp
      · simp [List.range_succ]
      · simp)
    (fun i b hi hlt hI => deltaStep_inv t addr values i b hv0 hi (by omega) hI)
  have h1 : 1 + (size - 1) = size := by omega
  rw [h1] at hI
  have hbytes : (endPage t b.w).dataPtr = t.ptrSize + widthSum t (endPage t b.w).data := by
    simp only [endPage, Writer.put, hI.ptr, widthSum_append]
    simp [widthSum, Field.width]
    omega
  refine ⟨⟨(endPage t b.w).nextPage, (endPage t b.w).data,
    pageBytes t values[0] ((values.take size).drop 1), (endPage t b.w).dataPtr⟩, b.calls,
    ?_, ?_, ?_, ?_, ?_, hbytes, hI.entries, hI.positions, hI.pages⟩
  · simp only [createPage, h0, if_true, getPageSize_eq t size values h0 hs, bind, Except.bind,
      entryAt_of_lt hv0, pure, Except.pure]
    simp only [hb]
  · simp [endPage, Writer.put, hI.link]
  · rw [take_eq_head_cons values size h0 hv0]
    simp [endPage, Writer.put, hI.data, pageData]
  · exact getPageSize_eq t size values h0 hs
  · simp only [endPage, Writer.put, hI.ptr, hI.data, widthSum_append, widthSum_encodeDeltas,
      pageBytes]
    simp [widthSum, anchorFields, Field.width]
    omega

theorem charAt_error {s : Str} {p : Nat} {f : Fault} (h : charAt s p = .error f) :
    f = Fault.outOfBounds ∧ s.length < p := by
  unfold charAt at h
  split at h
  · simp [pure, Except.pure] at h
  · split at h
    · simp [pure, Except.pure] at h
    · simp [throw, throwThe, MonadExceptOf.throw] at h
      exact ⟨h.symm, by omega⟩

theorem charAt_of_le {s : Str} {p : Nat} (h : p ≤ s.length) :
    charAt s p = .ok (s.getD p 0) := by
  unfold charAt
  split
  · rfl
  · have : p = s.length := by omega
    simp [this, pure, Except.pure]

theorem charAt_ok_ne_zero {s : Str} {p : Nat} {c : Byte} (h : charAt s p = .ok c) (hc : c ≠ 0) :
    p < s.length ∧ s[p]? = some c := by
  unfold charAt at h
  split at h
  · rename_i hlt
    simp [pure, Except.pure, List.getD_eq_getElem?_getD, List.getElem?_eq_getElem hlt] at h
    exact ⟨hlt, by simp [List.getElem?_eq_getElem hlt, h]⟩
  · split at h
    · simp [pure, Except.pure] at h; exact absurd h.symm hc
    · simp [throw, throwThe, MonadExceptOf.throw] at h

theorem readChar_error {values : List Entry} {i p : Nat} {f : Fault}
    (h : readChar values i p = .error f) : f = Fault.outOfBounds := by
  unfold readChar at h
  split at h
  · exact (charAt_error h).1
  · simp [throw, throwThe, MonadExceptOf.throw] at h; exact h.symm

/-- The loop of `findBlock` keeps an invariant that its two branches keep. -/
theorem findBlockLoop_inv (t : Target) (sc : Byte) (p : Nat) (values : List Entry)
    (Inv : Nat → Nat → Nat → Bool → Prop)
    (hle : ∀ s e b eos, Inv s e b eos → b ≤ s)
    (hmatch : ∀ s e b eos c, Inv s e b eos → s < e → readChar values ((e + s) / 2) p = .ok c →
      charEqU8 t c sc = true → Inv ((e + s) / 2 + 1) e ((e + s) / 2) eos)
    (hmiss : ∀ s e b eos c, Inv s e b eos → s < e → readChar values ((e + s) / 2) p = .ok c →
      charEqU8 t c sc = false → Inv s ((e + s) / 2) b (if c = 0 then true else eos)) :
    ∀ fuel s e b eos, e - s ≤ fuel → Inv s e b eos →
      (∀ r, findBlockLoop t sc p values fuel s e b eos = .ok r →
          Inv r.1 r.2.1 r.2.2.1 r.2.2.2 ∧ ¬ r.1 < r.2.1)
      ∧ (∀ f, findBlockLoop t sc p values fuel s e b eos = .error f → f = Fault.outOfBounds)
      ∧ ((∀ s e b eos, Inv s e b eos → s < e → ∃ c, readChar values ((e + s) / 2) p = .ok c) →
          ∃ r, findBlockLoop t sc p values fuel s e b eos = .ok r) := by
  intro fuel
  induction fuel with
  | zero =>
    intro s e b eos hf hI
    have hn : ¬ s < e := by omega
    unfold findBlockLoop
    simp only [hn, if_false, pure, Except.pure]
    refine ⟨?_, ?_, ?_⟩
    · intro r hr; cases hr; exact ⟨hI, hn⟩
    · intro f hr; cases hr
    · intro _; exact ⟨_, rfl⟩
  | succ fuel ih =>
    intro s e b eos hf hI
    unfold findBlockLoop
    by_cases hlt : s < e
    · simp only [hlt, if_true]
      cases hrd : readChar values ((e + s) / 2) p with
      | error f0 =>
        simp only [throw, throwThe, MonadExceptOf.throw]
        refine ⟨?_, ?_, ?_⟩
        · intro r hr; cases hr
        · intro f hr; cases hr; exact readChar_error hrd
        · intro hread
          obtain ⟨c, hc⟩ := hread s e b eos hI hlt
          rw [hrd] at hc; cases hc
      | ok c =>
        simp only []
        cases hm : charEqU8 t c sc with
        | true =>
          have hb : (e + s) / 2 ≥ b := by
            have := hle s e b eos hI
            omega
          simp only [if_true, hb]
          exact ih _ _ _ _ (by omega) (hmatch s e b eos c hI hlt hrd hm)
        | false =>
          simp only [Bool.false_eq_true, if_false]
          exact ih _ _ _ _ (by omega) (hmiss s e b eos c hI hlt hrd hm)
    · simp only [hlt, if_false, pure, Except.pure]
      refine ⟨?_, ?_, ?_⟩
      · intro r hr; cases hr; exact ⟨hI, hlt⟩
      · intro f hr; cases hr
      · intro _; exact ⟨_, rfl⟩

theorem findBlock_ok_iff (t : Target) (sc : Byte) (p size : Nat) (values : List Entry)
    (eos0 : Bool) (r : Nat) (eos : Bool) (hsize : 1 ≤ size) :
    findBlock t sc p size values eos0 = .ok (r, eos) ↔
      ∃ s e b c, findBlockLoop t sc p values size 0 (size - 1) 0 eos0 = .ok (s, e, b, eos)
        ∧ readChar values s p = .ok c ∧ r = if charEqU8 t c sc = true then s else b := by
  have hs0 : ¬ size = 0 := by omega
  unfold findBlock
  simp only [hs0, if_false]
  constructor
  · intro h
    cases hl : findBlockLoop t sc p values size 0 (size - 1) 0 eos0 with
    | error f => rw [hl] at h; cases h
    | ok x =>
      obtain ⟨s, e, b, eos1⟩ := x
      rw [hl] at h
      simp only [] at h
      cases hc : readChar values s p with
      | error f => rw [hc] at h; cases h
      | ok c =>
        rw [hc] at h
        simp only [] at h
        cases hm : charEqU8 t c sc <;> simp [hm, pure, Except.pure] at h
        · exact ⟨s, e, b, c, by rw [h.2], hc, by simp [hm, h.1]⟩
        · exact ⟨s, e, b, c, by rw [h.2], hc, by simp [hm, h.1]⟩
  · rintro ⟨s, e, b, c, hl, hc, hr⟩
    rw [hl]
    simp only [hc]
    cases hm : charEqU8 t c sc <;> simp [hm, pure, Except.pure] at hr ⊢ <;> exact hr.symm

theorem findBlock_error (t : Target) (sc : Byte) (p size : Nat) (values : List Entry)
    (eos0 : Bool) (f : Fault) (h : findBlock t sc p size values eos0 = .error f) :
    f = Fault.outOfBounds := by
  have key := findBlockLoop_inv t sc p values (fun s _ b _ => b ≤ s)
    (fun s e b eos h => h)
    (fun s e b eos c h hlt _ _ => by omega)
    (fun s e b eos c h hlt _ _ => h)
    size 0 (size - 1) 0 eos0 (by omega) (le_refl _)
  unfold findBlock at h
  by_cases hs0 : size = 0
  · simp only [hs0, if_true, throw, throwThe, MonadExceptOf.throw] at h
    cases h; rfl
  simp only [hs0, if_false] at h
  cases hl : findBlockLoop t sc p values size 0 (size - 1) 0 eos0 with
  | error f1 =>
    rw [hl] at h
    simp only [throw, throwThe, MonadExceptOf.throw] at h
    cases h
    exact key.2.1 _ hl
  | ok x =>
    obtain ⟨s, e, b, eos1⟩ := x
    rw [hl] at h
    simp only [] at h
    cases hc : readChar values s p with
    | error f1 =>
      rw [hc] at h
      simp only [throw, throwThe, MonadExceptOf.throw] at h
      cases h
      exact readChar_error hc
    | ok c =>
      rw [hc] at h
      simp only [] at h
      cases hm : charEqU8 t c sc <;> simp [hm, pure, Except.pure] at h

/-- The index `findBlock` returns lies in the run and is `0` or an index that compared
equal; with every entry of the run readable at the offset, `findBlock` returns. -/
theorem findBlock_sound (t : Target) (sc : Byte) (p size : Nat) (values : List Entry)
    (eos0 : Bool) (hsize : 1 ≤ size) :
    (∀ r eos, findBlock t sc p size values eos0 = .ok (r, eos) →
        r < size ∧ (r = 0 ∨ Matches t sc p values r))
    ∧ ((∀ i, i < size → ∃ c, readChar values i p = .ok c) →
        ∃ r, findBlock t sc p size values eos0 = .ok r) := by
  have key := findBlockLoop_inv t sc p values
    (fun s e b _ => s ≤ e ∧ e ≤ size - 1 ∧ b ≤ s ∧ (b = 0 ∨ Matches t sc p values b))
    (fun s e b eos h => h.2.2.1)
    (fun s e b eos c h hlt hrd hm => ⟨by omega, h.2.1, by omega, Or.inr ⟨c, hrd, hm⟩⟩)
    (fun s e b eos c h hlt _ _ => ⟨by omega, by omega, h.2.2.1, h.2.2.2⟩)
    size 0 (size - 1) 0 eos0 (by omega) ⟨by omega, le_refl _, le_refl _, Or.inl rfl⟩
  refine ⟨?_, ?_⟩
  · intro r eos h
    obtain ⟨s, e, b, c, hl, hc, hr⟩ := (findBlock_ok_iff t sc p size values eos0 r eos hsize).1 h
    obtain ⟨⟨h1, h2, h3, h4⟩, _⟩ := key.1 _ hl
    simp only at h1 h2 h3 h4
    by_cases hm : charEqU8 t c sc = true
    · simp only [hm, if_true] at hr
      subst hr
      exact ⟨by omega, Or.inr ⟨c, hc, hm⟩⟩
    · simp only [hm] at hr
      simp only [Bool.false_eq_true, if_false] at hr
      subst hr
      exact ⟨by omega, h4⟩
  · intro hread
    obtain ⟨⟨s, e, b, eos⟩, hl⟩ := key.2.2
      (fun s e b eos h hlt => hread _ (by omega))
    obtain ⟨⟨h1, h2, h3, h4⟩, _⟩ := key.1 _ hl
    simp only at h1 h2 h3 h4
    obtain ⟨c, hc⟩ := hread s (by omega)
    exact ⟨_, (findBlock_ok_iff t sc p size values eos0 _ eos hsize).2 ⟨s, e, b, c, hl, hc, rfl⟩⟩

/-- When the matching indices of the run are closed downwards and index `0` matches,
`findBlock` returns the last matching index. -/
theorem findBlock_last (t : Target) (sc : Byte) (p size : Nat) (values : List Entry)
    (eos0 : Bool) (hsize : 1 ≤ size)
    (hdown : ∀ i j, i ≤ j → j < size → Matches t sc p values j → Matches t sc p values i)
    (h0 : Matches t sc p values 0)
    (r : Nat) (eos : Bool) (h : findBlock t sc p size values eos0 = .ok (r, eos)) :
    Matches t sc p values r ∧ ∀ i, r < i → i < size → ¬ Matches t sc p values i := by
  have key := findBlockLoop_inv t sc p values
    (fun s e b _ => s ≤ e ∧ e ≤ size - 1 ∧ b ≤ s ∧ (∀ i, i < s → Matches t sc p values i)
      ∧ (∀ i, e < i → i < size → ¬ Matches t sc p values i) ∧ (b + 1 = s ∨ (s = 0 ∧ b = 0)))
    (fun s e b eos h => h.2.2.1)
    (fun s e b eos c h hlt hrd hm => ⟨by omega, h.2.1, by omega,
      fun i hi => hdown i ((e + s) / 2) (by omega) (by omega) ⟨c, hrd, hm⟩,
      h.2.2.2.2.1, Or.inl rfl⟩)
    (fun s e b eos c h hlt hrd hm => ⟨by omega, by omega, h.2.2.1, h.2.2.2.1,
      (fun i hi hsz hmi => by
        have := hdown ((e + s) / 2) i (by omega) hsz hmi
        obtain ⟨c', hc', hm'⟩ := this
        rw [hrd] at hc'; cases hc'
        rw [hm] at hm'; cases hm'),
      h.2.2.2.2.2⟩)
    size 0 (size - 1) 0 eos0 (by omega)
    ⟨by omega, le_refl _, le_refl _, fun i hi => by omega, fun i hi hsz => by omega,
      Or.inr ⟨rfl, rfl⟩⟩
  obtain ⟨s, e, b, c, hl, hc, hr⟩ := (findBlock_ok_iff t sc p size values eos0 r eos hsize).1 h
  obtain ⟨⟨h1, h2, h3, h4, h5, h6⟩, hex⟩ := key.1 _ hl
  simp only at h1 h2 h3 h4 h5 h6 hex
  have hse : s = e := by omega
  by_cases hm : charEqU8 t c sc = true
  · simp only [hm, if_true] at hr
    subst hr
    exact ⟨⟨c, hc, hm⟩, fun i hi hsz => h5 i (by omega) hsz⟩
  · simp only [hm] at hr
    simp only [Bool.false_eq_true, if_false] at hr
    subst hr
    have hns : ¬ Matches t sc p values s := by
      rintro ⟨c', hc', hm'⟩
      rw [hc] at hc'; cases hc'
      exact hm hm'
    rcases h6 with h6 | ⟨h6, _⟩
    · refine ⟨h4 r (by omega), fun i hi hsz => ?_⟩
      by_cases his : i = s
      · rw [his]; exact hns
      · exact h5 i (by omega) hsz
    · rw [h6] at hns; exact absurd h0 hns

theorem strLe_cons {a x : Byte} {as xs : Str} (h : strLe (a :: as) (x :: xs)) :
    a < x ∨ (a = x ∧ strLe as xs) := by
  rcases h with h | h
  · simp only [strLt, Bool.or_eq_true, Bool.and_eq_true, decide_eq_true_eq] at h
    rcases h with h | ⟨h1, h2⟩
    · exact Or.inl h
    · exact Or.inr ⟨h1, Or.inl h2⟩
  · simp only [List.cons.injEq] at h
    exact Or.inr ⟨h.1, Or.inr h.2⟩

theorem strLt_trans : ∀ (a b c : Str), strLt a b = true → strLt b c = true → strLt a c = true
  | [], [], _, h, _ => by simp [strLt] at h
  | [], _ :: _, [], _, h => by simp [strLt] at h
  | [], _ :: _, _ :: _, _, _ => by simp [strLt]
  | _ :: _, [], _, h, _ => by simp [strLt] at h
  | _ :: _, _ :: _, [], _, h => by simp [strLt] at h
  | a :: as, b :: bs, c :: cs, h1, h2 => by
    simp only [strLt, Bool.or_eq_true, Bool.and_eq_true, decide_eq_true_eq] at h1 h2 ⊢
    rcases h1 with h1 | ⟨h1, h1'⟩
    · rcases h2 with h2 | ⟨h2, _⟩
      · exact Or.inl (lt_trans h1 h2)
      · exact Or.inl (h2 ▸ h1)
    · rcases h2 with h2 | ⟨h2, h2'⟩
      · exact Or.inl (h1 ▸ h2)
      · exact Or.inr ⟨h1.trans h2, strLt_trans as bs cs h1' h2'⟩

/-- A string between two strings that share their first `m` bytes shares them too. -/
theorem take_eq_of_between : ∀ (m : Nat) (a x b : Str), strLe a x → strLe x b →
    a.take m = b.take m → m ≤ a.length → x.take m = a.take m
  | 0, _, _, _, _, _, _, _ => by simp
  | m + 1, [], _, _, _, _, _, h => by simp at h
  | m + 1, a :: as, x, [], _, _, h, _ => by simp at h
  | m + 1, a :: as, [], b :: bs, h, _, _, _ => by
    rcases h with h | h
    · simp [strLt] at h
    · cases h
  | m + 1, a :: as, x :: xs, b :: bs, h1, h2, h, hl => by
    simp only [List.take_succ_cons, List.cons.injEq] at h ⊢
    obtain ⟨hab, ht⟩ := h
    have hl' : m ≤ as.length := by simpa using hl
    rcases strLe_cons h1 with h1 | ⟨h1, h1'⟩
    · rcases strLe_cons h2 with h2 | ⟨h2, _⟩
      · exact absurd (lt_trans h1 h2) (by rw [hab]; exact lt_irrefl _)
      · rw [h2, hab] at h1; exact absurd h1 (lt_irrefl _)
    · rcases strLe_cons h2 with h2 | ⟨_, h2'⟩
      · rw [← h1, hab] at h2; exact absurd h2 (lt_irrefl _)
      · exact ⟨h1.symm, take_eq_of_between m as xs bs h1' h2' ht hl'⟩

theorem length_ge_of_take_eq {m : Nat} {a x : Str} (h : x.take m = a.take m)
    (hl : m ≤ a.length) : m ≤ x.length := by
  have := congrArg List.length h
  simp only [List.length_take] at this
  omega

theorem take_succ_eq_of {p : Nat} {a x : Str} {c : Byte} (h : x.take p = a.take p)
    (hx : x[p]? = some c) (ha : a[p]? = some c) : x.take (p + 1) = a.take (p + 1) := by
  rw [List.take_succ, List.take_succ, h, hx, ha]

theorem getElem?_of_take_succ_eq {p : Nat} {a x : Str} (h : x.take (p + 1) = a.take (p + 1)) :
    x[p]? = a[p]? := by
  have := congrArg (fun l => l[p]?) h
  simpa [List.getElem?_take] using this

theorem take_of_take_succ_eq {p : Nat} {a x : Str} (h : x.take (p + 1) = a.take (p + 1)) :
    x.take p = a.take p := by
  have := congrArg (List.take p) h
  simpa [List.take_take] using this

theorem sortedBatch_le {values : List Entry} (h : SortedBatch values) {i j : Nat} {x y : Entry}
    (hij : i ≤ j) (hx : values[i]? = some x) (hy : values[j]? = some y) : strLe x.2 y.2 := by
  rcases Nat.lt_or_eq_of_le hij with hlt | heq
  · left
    have hj : j < values.length := by
      rcases List.getElem?_eq_some_iff.1 hy with ⟨hj, _⟩; exact hj
    have hi : i < values.length := by omega
    have := (List.pairwise_iff_getElem.1 h) i j hi hj hlt
    rw [List.getElem?_eq_getElem hi] at hx
    rw [List.getElem?_eq_getElem hj] at hy
    cases hx; cases hy
    exact this
  · right
    subst heq
    rw [hx] at hy; cases hy; rfl

theorem charEqU8_eq {t : Target} {c sc : Byte} (h : charEqU8 t c sc = true) : c = sc := by
  unfold charEqU8 charToInt at h
  simp only [decide_eq_true_eq] at h
  have hc := c.isLt
  have hs := sc.isLt
  split at h
  · omega
  · exact Fin.ext (by omega)

theorem charEqU8_self {t : Target} {sc : Byte} (h : t.signedChar = false ∨ sc.val < 128) :
    charEqU8 t sc sc = true := by
  unfold charEqU8 charToInt
  simp only [decide_eq_true_eq]
  rcases h with h | h
  · simp [h]
  · have : ¬ (128 ≤ sc.val) := by omega
    simp [this]

theorem charEqU8_high {t : Target} {c sc : Byte} (ht : t.signedChar = true)
    (h : 128 ≤ sc.val) : charEqU8 t c sc = false := by
  unfold charEqU8 charToInt
  have hc := c.isLt
  by_cases h1 : 128 ≤ c.val
  · simp [ht, h1]; omega
  · simp [ht, h1]; omega


/-- The offset loop of `load` keeps an invariant that one refinement step keeps. -/
theorem searchLoop_inv (t : Target) (K : Nat) (values : List Entry) (start : Nat)
    (Inv : Nat → Nat → Bool → Prop)
    (hstep : ∀ pos e eos c r eos', Inv pos e eos → pos < K → eos = false →
      readChar values start pos = .ok c → c ≠ 0 →
      findBlock t c pos (e - start + 1) (values.drop start) eos = .ok (r, eos') →
      Inv (pos + 1) (start + r) eos') :
    ∀ fuel pos e eos, K - pos ≤ fuel → Inv pos e eos →
      (∀ e', searchLoop t K values start fuel pos e eos = .ok e' →
          ∃ pos' eos', Inv pos' e' eos'
            ∧ (K ≤ pos' ∨ eos' = true ∨ readChar values start pos' = .ok 0))
      ∧ (∀ f, searchLoop t K values start fuel pos e eos = .error f → f = Fault.outOfBounds)
      ∧ ((∀ pos e eos, Inv pos e eos → pos < K → eos = false →
            ∃ c, readChar values start pos = .ok c ∧ (c ≠ 0 →
              ∃ r, findBlock t c pos (e - start + 1) (values.drop start) eos = .ok r)) →
          ∃ e', searchLoop t K values start fuel pos e eos = .ok e') := by
  intro fuel
  induction fuel with
  | zero =>
    intro pos e eos hf hI
    have hn : ¬ pos < K := by omega
    unfold searchLoop
    simp only [hn, decide_False, Bool.false_and, Bool.false_eq_true, if_false, pure, Except.pure]
    refine ⟨?_, ?_, ?_⟩
    · intro e' hr; cases hr; exact ⟨pos, eos, hI, Or.inl (by omega)⟩
    · intro f hr; cases hr
    · intro _; exact ⟨_, rfl⟩
  | succ fuel ih =>
    intro pos e eos hf hI
    unfold searchLoop
    by_cases hc : (decide (pos < K) && !eos) = true
    · simp only [hc, if_true]
      simp only [Bool.and_eq_true, decide_eq_true_eq, Bool.not_eq_true'] at hc
      obtain ⟨hpos, heos⟩ := hc
      cases hrd : readChar values start pos with
      | error f0 =>
        simp only [throw, throwThe, MonadExceptOf.throw]
        refine ⟨?_, ?_, ?_⟩
        · intro r hr; cases hr
        · intro f hr; cases hr; exact readChar_error hrd
        · intro hdef
          obtain ⟨c, hc, _⟩ := hdef pos e eos hI hpos heos
          rw [hrd] at hc; cases hc
      | ok c =>
        simp only []
        by_cases hz : c = 0
        · simp only [hz, if_true, pure, Except.pure]
          refine ⟨?_, ?_, ?_⟩
          · intro e' hr; cases hr
            exact ⟨pos, eos, hI, Or.inr (Or.inr (by rw [hrd, hz]))⟩
          · intro f hr; cases hr
          · intro _; exact ⟨_, rfl⟩
        · simp only [hz, if_false]
          cases hfb : findBlock t c pos (e - start + 1) (values.drop start) eos with
          | error f0 =>
            simp only [throw, throwThe, MonadExceptOf.throw]
            refine ⟨?_, ?_, ?_⟩
            · intro r hr; cases hr
            · intro f hr; cases hr; exact findBlock_error _ _ _ _ _ _ _ hfb
            · intro hdef
              obtain ⟨c', hc', hfb'⟩ := hdef pos e eos hI hpos heos
              rw [hrd] at hc'; cases hc'
              obtain ⟨r, hr⟩ := hfb' hz
              rw [hfb] at hr; cases hr
          | ok x =>
            obtain ⟨r, eos'⟩ := x
            simp only []
            exact ih _ _ _ (by omega) (hstep pos e eos c r eos' hI hpos heos hrd hz hfb)
    · simp only [hc, if_false, pure, Except.pure]
      refine ⟨?_, ?_, ?_⟩
      · intro e' hr; cases hr
        simp only [Bool.and_eq_true, decide_eq_true_eq, Bool.not_eq_true', not_and,
          Bool.not_eq_false] at hc
        by_cases hp : pos < K
        · exact ⟨pos, eos, hI, Or.inr (Or.inl (hc hp))⟩
        · exact ⟨pos, eos, hI, Or.inl (by omega)⟩
      · intro f hr; cases hr
      · intro _; exact ⟨_, rfl⟩

/-- The offset loop never moves `end` below `start` or past its initial value, and it
fails only by reading out of bounds. -/
theorem searchLoop_bounds (t : Target) (K : Nat) (values : List Entry) (start e0 : Nat)
    (h : start ≤ e0) :
    (∀ e', searchLoop t K values start K 0 e0 false = .ok e' → start ≤ e' ∧ e' ≤ e0)
    ∧ (∀ f, searchLoop t K values start K 0 e0 false = .error f → f = Fault.outOfBounds) := by
  have key := searchLoop_inv t K values start (fun _ e _ => start ≤ e ∧ e ≤ e0)
    (fun pos e eos c r eos' hI _ _ _ _ hfb => by
      have := ((findBlock_sound t c pos (e - start + 1) (values.drop start) eos (by omega)).1
        r eos' hfb).1
      omega)
    K 0 e0 false (by omega) ⟨h, le_refl _⟩
  refine ⟨?_, key.2.1⟩
  intro e' he'
  obtain ⟨_, _, hI, _⟩ := key.1 e' he'
  exact hI


theorem cLen_le_length : ∀ s : Str, cLen s ≤ s.length
  | [] => by simp [cLen]
  | c :: cs => by
    unfold cLen
    split
    · simp
    · simpa using cLen_le_length cs

theorem getElem?_of_lt_cLen : ∀ (s : Str) (p : Nat), p < cLen s → ∃ c, s[p]? = some c ∧ c ≠ 0
  | [], p, h => by simp [cLen] at h
  | c :: cs, p, h => by
    unfold cLen at h
    split at h
    · omega
    · rename_i hc
      cases p with
      | zero => exact ⟨c, by simp, hc⟩
      | succ p =>
        obtain ⟨c', h1, h2⟩ := getElem?_of_lt_cLen cs p (by omega)
        exact ⟨c', by simpa using h1, h2⟩

theorem cLen_succ_of : ∀ (s : Str) (p : Nat) (c : Byte), p ≤ cLen s → s[p]? = some c → c ≠ 0 →
    p + 1 ≤ cLen s
  | [], p, c, _, h, _ => by simp at h
  | a :: as, p, c, hp, h, hc => by
    unfold cLen at hp ⊢
    split
    · rename_i ha
      simp only [ha, if_true] at hp
      have : p = 0 := by omega
      subst this
      simp at h
      rw [h] at ha; exact absurd ha hc
    · rename_i ha
      simp only [ha, if_false] at hp
      cases p with
      | zero => omega
      | succ p =>
        have := cLen_succ_of as p c (by omega) (by simpa using h) hc
        omega

theorem eq_cLen_of_zero (s : Str) (p : Nat) (hp : p ≤ cLen s) (h : charAt s p = .ok 0) :
    p = cLen s := by
  by_contra hne
  have hlt : p < cLen s := by omega
  obtain ⟨c, h1, h2⟩ := getElem?_of_lt_cLen s p hlt
  have hl := cLen_le_length s
  rw [charAt_of_le (by omega)] at h
  simp only [Except.ok.injEq, List.getD_eq_getElem?_getD, h1, Option.getD_some] at h
  exact h2 h

theorem readChar_drop (values : List Entry) (start i p : Nat) :
    readChar (values.drop start) i p = readChar values (start + i) p := by
  simp [readChar, List.getElem?_drop]

theorem readChar_of_le {values : List Entry} {i p : Nat} {x : Entry} (hx : values[i]? = some x)
    (hp : p ≤ x.2.length) : readChar values i p = .ok (x.2.getD p 0) := by
  simp [readChar, hx, charAt_of_le hp]

theorem readChar_of_getElem? {values : List Entry} {i p : Nat} {x : Entry} {c : Byte}
    (hx : values[i]? = some x) (hc : x.2[p]? = some c) : readChar values i p = .ok c := by
  have hp : p < x.2.length := by
    rcases List.getElem?_eq_some_iff.1 hc with ⟨h, _⟩; exact h
  rw [readChar_of_le hx (by omega)]
  simp [List.getD_eq_getElem?_getD, hc]

theorem readChar_ok {values : List Entry} {i p : Nat} {c : Byte}
    (h : readChar values i p = .ok c) : ∃ x, values[i]? = some x ∧ charAt x.2 p = .ok c := by
  unfold readChar at h
  split at h
  · rename_i e he; exact ⟨e, he, h⟩
  · simp [throw, throwThe, MonadExceptOf.throw] at h

theorem readChar_ok_ne_zero {values : List Entry} {i p : Nat} {c : Byte}
    (h : readChar values i p = .ok c) (hc : c ≠ 0) :
    ∃ x, values[i]? = some x ∧ p < x.2.length ∧ x.2[p]? = some c := by
  obtain ⟨x, hx, hch⟩ := readChar_ok h
  obtain ⟨h1, h2⟩ := charAt_ok_ne_zero hch hc
  exact ⟨x, hx, h1, h2⟩

/-- In a string that sorts at or behind `a` and shares its first `p` bytes, the byte at
offset `p` is at least the one of `a`. -/
theorem getElem?_ge_of_le : ∀ (p : Nat) (a x : Str) (c : Byte), strLe a x →
    x.take p = a.take p → a[p]? = some c → ∃ c', x[p]? = some c' ∧ c ≤ c'
  | _, [], _, _, _, _, h => by simp at h
  | _, a :: as, [], _, hle, _, _ => by
    rcases hle with h | h
    · simp [strLt] at h
    · cases h
  | 0, a :: as, x :: xs, c, hle, _, h => by
    simp only [List.getElem?_cons_zero, Option.some.injEq] at h ⊢
    subst h
    rcases strLe_cons hle with h | ⟨h, _⟩
    · exact ⟨x, rfl, le_of_lt h⟩
    · exact ⟨x, rfl, le_of_eq h⟩
  | p + 1, a :: as, x :: xs, c, hle, ht, h => by
    simp only [List.take_succ_cons, List.cons.injEq] at ht
    simp only [List.getElem?_cons_succ] at h ⊢
    rcases strLe_cons hle with h1 | ⟨_, h1⟩
    · rw [ht.1] at h1; exact absurd h1 (lt_irrefl _)
    · exact getElem?_ge_of_le p as xs c h1 ht.2 h

/-- When no entry of the run reads as the terminator, `findBlock` leaves `endOfString`
as it was. -/
theorem findBlock_eos (t : Target) (sc : Byte) (p size : Nat) (values : List Entry)
    (eos0 : Bool) (hsize : 1 ≤ size)
    (hnz : ∀ i c, i < size → readChar values i p = .ok c → c ≠ 0)
    (r : Nat) (eos : Bool) (h : findBlock t sc p size values eos0 = .ok (r, eos)) :
    eos = eos0 := by
  have key := findBlockLoop_inv t sc p values
    (fun s e b eos => s ≤ e ∧ e ≤ size - 1 ∧ b ≤ s ∧ eos = eos0)
    (fun s e b eos h => h.2.2.1)
    (fun s e b eos c h hlt hrd hm => ⟨by omega, h.2.1, by omega, h.2.2.2⟩)
    (fun s e b eos c h hlt hrd _ => ⟨by omega, by omega, h.2.2.1, by
      have := hnz _ c (by omega) hrd
      simp [this, h.2.2.2]⟩)
    size 0 (size - 1) 0 eos0 (by omega) ⟨by omega, le_refl _, le_refl _, rfl⟩
  obtain ⟨s, e, b, c, hl, _, _⟩ := (findBlock_ok_iff t sc p size values eos0 r eos hsize).1 h
  exact (key.1 _ hl).1.2.2.2


theorem lowBytes_char {t : Target} {values : List Entry} (h : LowBytes t values) {i p : Nat}
    {x : Entry} {c : Byte} (hx : values[i]? = some x) (hc : x.2[p]? = some c) :
    t.signedChar = false ∨ c.val < 128 := by
  rcases h with h | h
  · exact Or.inl h
  · exact Or.inr (h x (List.mem_iff_getElem?.2 ⟨_, hx⟩) c (List.mem_iff_getElem?.2 ⟨_, hc⟩))

theorem matches_of_getElem? {t : Target} {values : List Entry} {j p : Nat} {x : Entry}
    {c : Byte} (h : t.signedChar = false ∨ c.val < 128) (hx : values[j]? = some x)
    (hc : x.2[p]? = some c) : Matches t c p values j :=
  ⟨c, readChar_of_getElem? hx hc, charEqU8_self h⟩

theorem getElem?_of_matches {t : Target} {values : List Entry} {j p : Nat} {c : Byte}
    (h : Matches t c p values j) (hc : c ≠ 0) :
    ∃ x, values[j]? = some x ∧ x.2[p]? = some c := by
  obtain ⟨c', hrd, hm⟩ := h
  have := charEqU8_eq hm
  subst this
  obtain ⟨x, hx, _, hxc⟩ := readChar_ok_ne_zero hrd hc
  exact ⟨x, hx, hxc⟩

theorem byte_ne_zero_of_le {c c' : Byte} (h : c ≤ c') (hc : c ≠ 0) : c' ≠ 0 := by
  intro h0
  subst h0
  apply hc
  apply Fin.ext
  have : c.val ≤ (0 : Byte).val := h
  simpa using this


/-- One refinement step of the offset loop on a sorted batch keeps `SearchInv`. -/
theorem searchInv_step (t : Target) (K : Nat) (values : List Entry) (start e0 : Nat) (A : Entry)
    (hs : SortedBatch values) (hA : values[start]? = some A) (he0 : e0 < values.length)
    (pos e : Nat) (eos : Bool) (c : Byte) (r : Nat) (eos' : Bool)
    (hI : SearchInv t K values start e0 A pos e eos) (hpos : pos < K)
    (hrd : readChar values start pos = .ok c) (hz : c ≠ 0)
    (hfb : findBlock t c pos (e - start + 1) (values.drop start) eos = .ok (r, eos')) :
    SearchInv t K values start e0 A (pos + 1) (start + r) eos' := by
  obtain ⟨A', hA', hposA, hAc⟩ := readChar_ok_ne_zero hrd hz
  rw [hA] at hA'; cases hA'
  have hsound := (findBlock_sound t c pos (e - start + 1) (values.drop start) eos
    (by omega)).1 r eos' hfb
  have hre : start + r ≤ e := by have := hsound.1; have := hI.lo; omega
  have hrn : start + r < values.length := by have := hI.hi; omega
  -- the entry `findBlock` returns shares `pos + 1` bytes with the anchor
  have hy : values[start + r].2.take (pos + 1) = A.2.take (pos + 1) := by
    rcases hsound.2 with h0 | hm
    · subst h0
      have : values[start + 0]? = some A := hA
      rw [List.getElem?_eq_getElem hrn] at this
      cases this; rfl
    · obtain ⟨x, hx, hxc⟩ := getElem?_of_matches hm hz
      rw [List.getElem?_drop, List.getElem?_eq_getElem hrn] at hx
      cases hx
      exact take_succ_eq_of
        (hI.agree (start + r) _ (by omega) hre (List.getElem?_eq_getElem hrn)) hxc hAc
  have hagree : ∀ i x, start ≤ i → i ≤ start + r → values[i]? = some x →
      x.2.take (pos + 1) = A.2.take (pos + 1) := by
    intro i x hi1 hi2 hx
    exact take_eq_of_between (pos + 1) A.2 x.2 _ (sortedBatch_le hs hi1 hA hx)
      (sortedBatch_le hs hi2 hx (List.getElem?_eq_getElem hrn)) hy.symm (by omega)
  -- every entry of the run has a byte at `pos` that is not the terminator
  have hbyte : ∀ i x, start ≤ i → i ≤ e → values[i]? = some x →
      ∃ c', x.2[pos]? = some c' ∧ c ≤ c' := by
    intro i x hi1 hi2 hx
    exact getElem?_ge_of_le pos A.2 x.2 c (sortedBatch_le hs hi1 hA hx)
      (hI.agree i x hi1 hi2 hx) hAc
  have hnz : ∀ i c', i < e - start + 1 → readChar (values.drop start) i pos = .ok c' →
      c' ≠ 0 := by
    intro i c' hi hrd'
    rw [readChar_drop] at hrd'
    have hin : start + i < values.length := by have := hI.hi; omega
    obtain ⟨c'', hc'', hle⟩ := hbyte (start + i) _ (by omega) (by omega)
      (List.getElem?_eq_getElem hin)
    rw [readChar_of_getElem? (List.getElem?_eq_getElem hin) hc''] at hrd'
    cases hrd'
    exact byte_ne_zero_of_le hle hz
  refine ⟨by omega, by have := hI.hi; omega, by omega, cLen_succ_of A.2 pos c hI.posLen hAc hz,
    hagree, ?_, ?_⟩
  · rw [findBlock_eos t c pos (e - start + 1) (values.drop start) eos (by omega) hnz r eos' hfb]
    exact hI.eos
  · intro hlow i x hi1 hi2 hx hcontra
    by_cases hie : i ≤ e
    · have hcc := lowBytes_char hlow hA hAc
      have h0 : Matches t c pos (values.drop start) 0 := by
        refine matches_of_getElem? hcc ?_ hAc
        rw [List.getElem?_drop]; exact hA
      have hdown : ∀ i j, i ≤ j → j < e - start + 1 →
          Matches t c pos (values.drop start) j → Matches t c pos (values.drop start) i := by
        intro i j hij hj hm
        obtain ⟨y, hyv, hyc⟩ := getElem?_of_matches hm hz
        rw [List.getElem?_drop] at hyv
        have hin : start + i < values.length := by have := hI.hi; omega
        have hyt : y.2.take (pos + 1) = A.2.take (pos + 1) :=
          take_succ_eq_of (hI.agree (start + j) y (by omega) (by omega) hyv) hyc hAc
        have hxt := take_eq_of_between (pos + 1) A.2 values[start + i].2 y.2
          (sortedBatch_le hs (by omega) hA (List.getElem?_eq_getElem hin))
          (sortedBatch_le hs (by omega) (List.getElem?_eq_getElem hin) hyv) hyt.symm (by omega)
        have hxc := getElem?_of_take_succ_eq hxt
        rw [hAc] at hxc
        refine matches_of_getElem? hcc ?_ hxc
        rw [List.getElem?_drop]; exact List.getElem?_eq_getElem hin
      have hlast := findBlock_last t c pos (e - start + 1) (values.drop start) eos (by omega)
        hdown h0 r eos' hfb
      apply hlast.2 (i - start) (by omega) (by omega)
      have hxc := getElem?_of_take_succ_eq hcontra
      rw [hAc] at hxc
      refine matches_of_getElem? hcc ?_ hxc
      rw [List.getElem?_drop]
      have : start + (i - start) = i := by omega
      rw [this]; exact hx
    · exact hI.maximal hlow i x (by omega) hi2 hx (take_of_take_succ_eq hcontra)

/-- On a sorted batch the offset loop of `load` returns, and its result satisfies
`SearchInv` at the offset where the loop stopped: the prefix limit, or the terminator of
the anchor. -/
theorem searchLoop_sorted (t : Target) (K : Nat) (values : List Entry) (start e0 : Nat)
    (A : Entry) (hs : SortedBatch values) (hA : values[start]? = some A) (hse : start ≤ e0)
    (he0 : e0 < values.length) :
    ∃ e', searchLoop t K values start K 0 e0 false = .ok e'
      ∧ SearchInv t K values start e0 A (min K (cLen A.2)) e' false := by
  have key := searchLoop_inv t K values start (SearchInv t K values start e0 A)
    (fun pos e eos c r eos' hI hpos _ hrd hz hfb =>
      searchInv_step t K values start e0 A hs hA he0 pos e eos c r eos' hI hpos hrd hz hfb)
    K 0 e0 false (by omega)
    ⟨hse, le_refl _, Nat.zero_le _, Nat.zero_le _, fun _ _ _ _ _ => by simp, rfl,
      fun _ i x h1 h2 _ => by omega⟩
  obtain ⟨e', he'⟩ := key.2.2 (by
    intro pos e eos hI hpos _
    have hl := cLen_le_length A.2
    refine ⟨_, readChar_of_le hA (by have := hI.posLen; omega), ?_⟩
    intro _
    refine (findBlock_sound t _ pos (e - start + 1) (values.drop start) eos (by omega)).2 ?_
    intro i hi
    have hlo := hI.lo
    have hin : start + i < values.length := by have := hI.hi; omega
    rw [readChar_drop]
    refine ⟨_, readChar_of_le (List.getElem?_eq_getElem hin) ?_⟩
    exact length_ge_of_take_eq
      (hI.agree (start + i) _ (by omega) (by omega) (List.getElem?_eq_getElem hin))
      (by have := hI.posLen; omega))
  refine ⟨e', he', ?_⟩
  obtain ⟨pos', eos', hI, hstop⟩ := key.1 e' he'
  have heos := hI.eos
  subst heos
  have hpos : pos' = min K (cLen A.2) := by
    have h1 := hI.posK
    have h2 := hI.posLen
    rcases hstop with h | h | h
    · omega
    · cases h
    · obtain ⟨x, hx, hch⟩ := readChar_ok h
      rw [hA] at hx; cases hx
      have := eq_cLen_of_zero A.2 pos' h2 hch
      omega
  rw [← hpos]; exact hI


theorem consecutive_append : ∀ (runs : List (Nat × Nat)) (s m a b : Nat),
    Consecutive s runs m → m ≤ b → a = m → Consecutive s (runs ++ [(a, b)]) (b + 1)
  | [], s, m, a, b, h, hb, ha => by
    simp only [Consecutive] at h
    subst h; subst ha
    simp [Consecutive, hb]
  | (x, y) :: rest, s, m, a, b, h, hb, ha => by
    simp only [Consecutive, List.cons_append] at h ⊢
    exact ⟨h.1, h.2.1, consecutive_append rest (y + 1) m a b h.2.2 hb ha⟩

theorem consecutive_le : ∀ (runs : List (Nat × Nat)) (s e : Nat),
    Consecutive s runs e → s + runs.length ≤ e ∧ ∀ run ∈ runs, s ≤ run.1 ∧ run.1 ≤ run.2 ∧ run.2 < e
  | [], s, e, h => by simp only [Consecutive] at h; subst h; simp
  | (x, y) :: rest, s, e, h => by
    simp only [Consecutive] at h
    obtain ⟨h1, h2, h3⟩ := h
    have ih := consecutive_le rest (y + 1) e h3
    refine ⟨by simp only [List.length_cons]; omega, ?_⟩
    intro run hrun
    simp only [List.mem_cons] at hrun
    rcases hrun with hrun | hrun
    · subst hrun; simp only; omega
    · have := ih.2 run hrun; omega

theorem callsOf_append (t : Target) (values : List Entry) :
    ∀ (runs : List (Nat × Nat)) (addr : Nat) (run : Nat × Nat),
      callsOf t values addr (runs ++ [run])
        = callsOf t values addr runs ++ pageCalls t values (addr + runs.length) run
  | [], addr, run => by simp [callsOf]
  | r :: rs, addr, run => by
    have ih := callsOf_append t values rs (addr + 1) run
    have : addr + 1 + rs.length = addr + (rs.length + 1) := by omega
    rw [this] at ih
    show pageCalls t values addr r ++ callsOf t values (addr + 1) (rs ++ [run]) = _
    rw [ih]
    simp [callsOf]


/-- One iteration of the outer loop of `load` keeps `LoadInv`. -/
theorem loadInv_step (t : Target) (K : Nat) (values : List Entry) (c0 start : Nat)
    (lastPage : Option Nat) (st : LoadState) (end_ : Nat) (page : Page) (calls : List Call)
    (hI : LoadInv t K values c0 start lastPage st)
    (hsl : searchLoop t K values start K 0 (values.length - 1) false = .ok end_)
    (hse : start ≤ end_)
    (hcp : createPage t st.heap.length (end_ - start + 1) (values.drop start)
      = .ok (page, calls))
    (hlink : page.nextPage = none) :
    LoadInv t K values c0 (end_ + 1) (some st.heap.length)
      ⟨linkPage (st.heap ++ [page]) lastPage st.heap.length,
       st.calls ++ calls, st.counter + 1, st.runs ++ [(start, end_)]⟩ := by
  obtain ⟨hruns, hsearch, hlen, hlast, hcounter, hheap, hcalls⟩ := hI
  subst hlast
  have hbp : ∀ next, builtPage t values st.heap.length (start, end_) next
      = { page with nextPage := next } := by
    intro next
    simp only [builtPage, hcp]
  have hrl : (st.runs ++ [(start, end_)]).length = st.runs.length + 1 := by simp
  constructor
  · exact consecutive_append st.runs 0 start start end_ hruns hse rfl
  · intro run hrun
    simp only [List.mem_append, List.mem_singleton] at hrun
    rcases hrun with hrun | hrun
    · exact hsearch run hrun
    · subst hrun; exact hsl
  · by_cases hne : st.runs.length = 0 <;> simp [linkPage, setNextPage, hlen, hne]
  · simp [hlen]
  · simp only [hcounter, List.length_append, List.length_singleton]; omega
  · intro i run hrun
    simp only [List.length_append, List.length_singleton]
    by_cases hi : i < st.runs.length
    · rw [List.getElem?_append_left hi] at hrun
      have hold := hheap i run hrun
      have hih : i < st.heap.length := by omega
      have hne : st.runs.length ≠ 0 := by omega
      have hnew : i + 1 < st.runs.length + 1 := by omega
      simp only [hne, if_false, linkPage, setNextPage, hnew, if_true]
      by_cases hil : i + 1 < st.runs.length
      · simp only [hil, if_true] at hold
        rw [List.getElem?_modify_ne _ _ (by omega), List.getElem?_append_left hih]
        exact hold
      · have hil' : st.runs.length - 1 = i := by omega
        simp only [hil, if_false] at hold
        rw [hil', List.getElem?_modify_eq, List.getElem?_append_left hih, hold]
        simp only [Option.map_some', builtPage, hlen]
        have : st.runs.length = i + 1 := by omega
        rw [this]
        split <;> rfl
    · have hi' : i = st.runs.length := by
        have : i < (st.runs ++ [(start, end_)]).length := by
          rcases List.getElem?_eq_some_iff.1 hrun with ⟨h, _⟩; exact h
        omega
      subst hi'
      simp only [List.getElem?_concat_length, Option.some.injEq] at hrun
      subst hrun
      have hnot : ¬ (st.runs.length + 1 < st.runs.length + 1) := by omega
      simp only [hnot, if_false]
      have hpe : ({ page with nextPage := none } : Page) = page := by
        cases page
        simp only at hlink
        subst hlink
        rfl
      rw [← hlen, hbp none, hpe]
      by_cases hne : st.heap.length = 0
      · simp [hne, linkPage]
      · simp only [hne, if_false, linkPage, setNextPage]
        rw [List.getElem?_modify_ne _ _ (by omega)]
        simp
  · simp only [hcalls, callsOf_append, pageCalls, Nat.zero_add, ← hlen, hcp]



/-- The outer loop of `load`, entered with the cursor inside the batch and `LoadInv`:
when it returns, `LoadInv` holds with the cursor at the end of the batch; it fails only
by reading out of bounds; on a sorted batch it returns. -/
theorem loadLoop_spec (t : Target) (K : Nat) (values : List Entry) (c0 : Nat) :
    ∀ fuel start lastPage st, start < values.length → values.length - start ≤ fuel →
      LoadInv t K values c0 start lastPage st →
      (∀ st', loadLoop t K values fuel start lastPage st = .ok st' →
          ∃ lp, LoadInv t K values c0 values.length lp st')
      ∧ (∀ f, loadLoop t K values fuel start lastPage st = .error f → f = Fault.outOfBounds)
      ∧ (SortedBatch values → ∃ st', loadLoop t K values fuel start lastPage st = .ok st') := by
  intro fuel
  induction fuel with
  | zero => intro start lastPage st h1 h2; omega
  | succ fuel ih =>
    intro start lastPage st hstart hfuel hI
    have hb := searchLoop_bounds t K values start (values.length - 1) (by omega)
    cases hsl : searchLoop t K values start K 0 (values.length - 1) false with
    | error f0 =>
      have hf0 := hb.2 f0 hsl
      refine ⟨?_, ?_, ?_⟩
      · intro st' h
        simp [loadLoop, hsl, bind, Except.bind] at h
      · intro f h
        simp [loadLoop, hsl, bind, Except.bind] at h
        rw [← h]; exact hf0
      · intro hs
        obtain ⟨A, hA⟩ : ∃ A, values[start]? = some A :=
          ⟨_, List.getElem?_eq_getElem hstart⟩
        obtain ⟨e', he', _⟩ := searchLoop_sorted t K values start (values.length - 1) A hs hA
          (by omega) (by omega)
        rw [hsl] at he'; cases he'
    | ok end_ =>
      obtain ⟨hse, hen⟩ := hb.1 end_ hsl
      obtain ⟨page, calls, hcp, hpb⟩ := createPage_spec t st.heap.length
        (end_ - start + 1) (values.drop start) (by omega)
        (by simp only [List.length_drop]; omega)
      have hstep := loadInv_step t K values c0 start lastPage st end_ page calls hI hsl hse
        hcp hpb.link
      have hs1 : (if start = end_ then start + 1 else end_ + 1) = end_ + 1 := by
        split <;> omega
      by_cases hlt : end_ < values.length - 1
      · have hrec := ih (end_ + 1) (some st.heap.length) _ (by omega) (by omega) hstep
        have heq : loadLoop t K values (fuel + 1) start lastPage st
            = loadLoop t K values fuel (end_ + 1) (some st.heap.length)
                ⟨linkPage (st.heap ++ [page]) lastPage st.heap.length,
                  st.calls ++ calls, st.counter + 1, st.runs ++ [(start, end_)]⟩ := by
          simp only [loadLoop, hsl, hcp, bind, Except.bind, hlt, if_true, hs1]
        rw [heq]
        exact hrec
      · have heq : loadLoop t K values (fuel + 1) start lastPage st
            = .ok ⟨linkPage (st.heap ++ [page]) lastPage st.heap.length,
                  st.calls ++ calls, st.counter + 1, st.runs ++ [(start, end_)]⟩ := by
          simp only [loadLoop, hsl, hcp, bind, Except.bind, hlt, if_false, pure, Except.pure]
        rw [heq]
        have hend : end_ + 1 = values.length := by omega
        rw [hend] at hstep
        refine ⟨?_, ?_, ?_⟩
        · intro st' h; cases h; exact ⟨_, hstep⟩
        · intro f h; cases h
        · intro _; exact ⟨_, rfl⟩

/-- The state `load` returns on a batch. -/
theorem load_spec (t : Target) (K : Nat) (values : List Entry) (c0 : Nat) :
    (∀ st, load t K values c0 = .ok st → ∃ lp, LoadInv t K values c0 values.length lp st)
    ∧ (∀ f, load t K values c0 = .error f → f = Fault.outOfBounds)
    ∧ (values ≠ [] → SortedBatch values → ∃ st, load t K values c0 = .ok st) := by
  by_cases hv : values.length = 0
  · simp only [load, hv, if_true, throw, throwThe, MonadExceptOf.throw]
    refine ⟨?_, ?_, ?_⟩
    · intro st h; cases h
    · intro f h; cases h; rfl
    · intro hne; exact absurd (List.length_eq_zero.1 hv) hne
  · simp only [load, hv, if_false]
    have key := loadLoop_spec t K values c0 values.length 0 none ⟨[], [], c0, []⟩ (by omega)
      (by omega)
      ⟨by simp [Consecutive], by simp, by simp, by simp, by simp, by simp, by simp [callsOf]⟩
    exact ⟨key.1, key.2.1, fun _ hs => key.2.2 hs⟩



theorem commonPrefixLen_le : ∀ (a v : Str),
    commonPrefixLen a v ≤ a.length ∧ commonPrefixLen a v ≤ v.length
  | [], _ => by simp [commonPrefixLen]
  | _ :: _, [] => by simp [commonPrefixLen]
  | a :: as, b :: bs => by
    unfold commonPrefixLen
    split
    · have := commonPrefixLen_le as bs
      simp only [List.length_cons]; omega
    · simp

theorem take_commonPrefixLen : ∀ (a v : Str),
    a.take (commonPrefixLen a v) = v.take (commonPrefixLen a v)
  | [], _ => by simp [commonPrefixLen]
  | _ :: _, [] => by simp [commonPrefixLen]
  | a :: as, b :: bs => by
    unfold commonPrefixLen
    split
    · rename_i h
      simp [h, take_commonPrefixLen as bs]
    · simp

/-- The two strings do not carry the same byte right behind their shared run. -/
theorem commonPrefixLen_maximal : ∀ (a v : Str) (c : Byte),
    a[commonPrefixLen a v]? = some c → v[commonPrefixLen a v]? ≠ some c
  | [], _, c => by simp
  | _ :: _, [], c => by simp
  | a :: as, b :: bs, c => by
    unfold commonPrefixLen
    split
    · simpa using commonPrefixLen_maximal as bs c
    · rename_i h
      simp only [List.getElem?_cons_zero, Option.some.injEq]
      intro h1 h2
      cases h2
      exact h h1

theorem take_append_delta (a v : Str) : a.take (delta a v).2 ++ (delta a v).1 = v := by
  simp only [delta, take_commonPrefixLen a v, List.take_append_drop]

theorem decodeDeltas_encodeDeltas (anchor : Str) : ∀ ds : List Entry,
    decodeDeltas anchor (encodeDeltas anchor ds ++ [Field.header Header.endOfPage]) = some ds
  | [] => by simp [encodeDeltas, decodeDeltas]
  | d :: ds => by
    have ih := decodeDeltas_encodeDeltas anchor ds
    show decodeDeltas anchor (Field.header Header.startOfDelta :: Field.id d.1
      :: Field.prefixSize (delta anchor d.2).2 :: Field.stringSize (delta anchor d.2).1.length
      :: Field.chars (delta anchor d.2).1
      :: (encodeDeltas anchor ds ++ [Field.header Header.endOfPage])) = some (d :: ds)
    simp only [decodeDeltas, if_true, ih, take_append_delta]

theorem decodePage_pageData (p : Page) (a : Entry) (ds : List Entry)
    (h : p.data = pageData (a :: ds)) : decodePage p = some (a :: ds) := by
  simp only [decodePage, h, pageData, anchorFields, List.cons_append, List.nil_append,
    if_true, decodeDeltas_encodeDeltas]

theorem runEntries_ne_nil (values : List Entry) (run : Nat × Nat) (h : run.1 < values.length) :
    ∃ a ds, runEntries values run = a :: ds := by
  have : (runEntries values run).length ≠ 0 := by
    simp only [runEntries, List.length_take, List.length_drop]; omega
  cases hre : runEntries values run with
  | nil => rw [hre] at this; simp at this
  | cons a ds => exact ⟨a, ds, rfl⟩

/-- The page built for a range inside the batch and what it reports. -/
theorem builtPage_spec (t : Target) (values : List Entry) (addr : Nat) (run : Nat × Nat)
    (next : Option Nat) (h1 : run.1 ≤ run.2) (h2 : run.2 < values.length) :
    ∃ page, createPage t addr (run.2 - run.1 + 1) (values.drop run.1)
        = .ok (page, pageCalls t values addr run)
      ∧ PageBuilt t addr (run.2 - run.1 + 1) (values.drop run.1) page
          (pageCalls t values addr run)
      ∧ builtPage t values addr run next = { page with nextPage := next } := by
  obtain ⟨page, calls, hcp, hpb⟩ := createPage_spec t addr (run.2 - run.1 + 1)
    (values.drop run.1) (by omega) (by simp only [List.length_drop]; omega)
  have hc : pageCalls t values addr run = calls := by simp only [pageCalls, hcp]
  refine ⟨page, by rw [hc]; exact hcp, by rw [hc]; exact hpb, ?_⟩
  simp only [builtPage, hcp]

theorem decodePage_builtPage (t : Target) (values : List Entry) (addr : Nat) (run : Nat × Nat)
    (next : Option Nat) (h1 : run.1 ≤ run.2) (h2 : run.2 < values.length) :
    decodePage (builtPage t values addr run next) = some (runEntries values run) := by
  obtain ⟨page, _, hpb, hbp⟩ := builtPage_spec t values addr run next h1 h2
  obtain ⟨a, ds, hre⟩ := runEntries_ne_nil values run (by omega)
  rw [hre, hbp]
  apply decodePage_pageData
  simp only [hpb.data]
  rw [← hre]; rfl

/-- The entries of consecutive ranges, one range after the other, are the entries of the
batch from the first range on. -/
theorem join_runEntries (values : List Entry) : ∀ (runs : List (Nat × Nat)) (s : Nat),
    Consecutive s runs values.length →
      (runs.map (runEntries values)).flatten = values.drop s
  | [], s, h => by
    simp only [Consecutive] at h
    subst h
    simp
  | (a, b) :: rest, s, h => by
    simp only [Consecutive] at h
    obtain ⟨h1, h2, h3⟩ := h
    subst h1
    have hb := (consecutive_le rest (b + 1) values.length h3).1
    simp only [List.map_cons, List.flatten_cons, join_runEntries values rest (b + 1) h3,
      runEntries]
    have : values.drop (b + 1) = (values.drop a).drop (b - a + 1) := by
      rw [List.drop_drop]
      congr 1
      omega
    rw [this, List.take_append_drop]



/-- In a heap whose page `i` links to page `i + 1` and whose last page has an empty link,
the walk from page `i` meets the pages `i, i + 1, ...` up to the last one. -/
theorem walk_linked (heap : List Page)
    (hlinks : ∀ i, i < heap.length → ∃ p, heap[i]? = some p
      ∧ p.nextPage = if i + 1 < heap.length then some (i + 1) else none) :
    ∀ fuel i, i < heap.length → heap.length - i ≤ fuel →
      walk heap fuel (some i) = some (List.range' i (heap.length - i))
  | 0, i, h1, h2 => by omega
  | fuel + 1, i, h1, h2 => by
    obtain ⟨p, hp, hnext⟩ := hlinks i h1
    have hr : heap.length - i = (heap.length - (i + 1)) + 1 := by omega
    rw [hr, List.range'_succ]
    simp only [walk, hp, hnext]
    by_cases hlast : i + 1 < heap.length
    · simp only [hlast, if_true]
      rw [walk_linked heap hlinks fuel (i + 1) hlast (by omega)]
    · simp only [hlast, if_false]
      have : heap.length - (i + 1) = 0 := by omega
      rw [this]
      cases fuel <;> simp [walk]

theorem loadInv_runs_valid {t : Target} {K : Nat} {values : List Entry} {c0 : Nat}
    {lp : Option Nat} {st : LoadState} (hI : LoadInv t K values c0 values.length lp st) :
    ∀ run ∈ st.runs, run.1 ≤ run.2 ∧ run.2 < values.length := by
  intro run hrun
  have := (consecutive_le st.runs 0 values.length hI.runs).2 run hrun
  omega

theorem loadInv_links {t : Target} {K : Nat} {values : List Entry} {c0 : Nat}
    {lp : Option Nat} {st : LoadState} (hI : LoadInv t K values c0 values.length lp st) :
    ∀ i, i < st.heap.length → ∃ p, st.heap[i]? = some p
      ∧ p.nextPage = if i + 1 < st.heap.length then some (i + 1) else none := by
  intro i hi
  have hir : i < st.runs.length := by rw [← hI.len]; exact hi
  have hh := hI.heap i _ (List.getElem?_eq_getElem hir)
  refine ⟨_, hh, ?_⟩
  have hv := loadInv_runs_valid hI _ (List.getElem_mem hir)
  obtain ⟨page, _, _, hbp⟩ := builtPage_spec t values i st.runs[i]
    (if i + 1 < st.runs.length then some (i + 1) else none) hv.1 hv.2
  rw [hbp, hI.len]

theorem foldr_decode (t : Target) (values : List Entry) (heap : List Page)
    (runs : List (Nat × Nat)) (hlen : heap.length = runs.length)
    (hvalid : ∀ run ∈ runs, run.1 ≤ run.2 ∧ run.2 < values.length)
    (hheap : ∀ i run, runs[i]? = some run → ∃ next, heap[i]? = some
      (builtPage t values i run next)) :
    ∀ k i, i + k = runs.length →
      (List.range' i k).foldr
        (fun a acc =>
          match heap[a]?, acc with
          | some p, some es =>
            match decodePage p with
            | some ps => some (ps ++ es)
            | none => none
          | _, _ => none)
        (some []) = some (((runs.drop i).map (runEntries values)).flatten)
  | 0, i, h => by
    have : runs.drop i = [] := List.drop_eq_nil_of_le (by omega)
    simp [this]
  | k + 1, i, h => by
    have hi : i < runs.length := by omega
    obtain ⟨next, hp⟩ := hheap i runs[i] (List.getElem?_eq_getElem hi)
    have hv := hvalid _ (List.getElem_mem hi)
    have ih := foldr_decode t values heap runs hlen hvalid hheap k (i + 1) (by omega)
    rw [List.range'_succ, List.foldr_cons, ih, hp]
    simp only [decodePage_builtPage t values i runs[i] next hv.1 hv.2]
    rw [List.drop_eq_getElem_cons hi]
    simp only [List.map_cons, List.flatten_cons]

theorem callsOf_entries (t : Target) (values : List Entry) :
    ∀ (runs : List (Nat × Nat)) (addr : Nat),
      (∀ run ∈ runs, run.1 ≤ run.2 ∧ run.2 < values.length) →
      (callsOf t values addr runs).map (fun c => (c.id, c.value))
        = (runs.map (runEntries values)).flatten
  | [], _, _ => by simp [callsOf]
  | run :: rest, addr, h => by
    have hv := h run (List.mem_cons_self _ _)
    obtain ⟨page, _, hpb, _⟩ := builtPage_spec t values addr run none hv.1 hv.2
    have ih := callsOf_entries t values rest (addr + 1)
      (fun r hr => h r (List.mem_cons_of_mem _ hr))
    simp only [callsOf, List.map_append, ih, hpb.entries, List.map_cons, List.flatten_cons,
      runEntries]


theorem consecutive_getLast : ∀ (runs : List (Nat × Nat)) (s e : Nat),
    Consecutive s runs e → runs ≠ [] → ∃ a, runs.getLast? = some (a, e - 1)
  | [], _, _, _, h => absurd rfl h
  | [(a, b)], s, e, h, _ => by
    simp only [Consecutive] at h
    refine ⟨a, ?_⟩
    have : e - 1 = b := by omega
    simp [this]
  | (a, b) :: r :: rest, s, e, h, _ => by
    simp only [Consecutive] at h
    obtain ⟨x, hx⟩ := consecutive_getLast (r :: rest) (b + 1) e (by simpa [Consecutive] using h.2.2)
      (by simp)
    exact ⟨x, by rw [List.getLast?_cons_cons]; exact hx⟩

theorem loadInv_runs_ne_nil {t : Target} {K : Nat} {values : List Entry} {c0 : Nat}
    {lp : Option Nat} {st : LoadState} (hI : LoadInv t K values c0 values.length lp st)
    (hne : values ≠ []) : st.runs ≠ [] := by
  intro hr
  have h0 := hI.runs
  rw [hr] at h0
  simp only [Consecutive] at h0
  exact hne (List.length_eq_zero.1 h0.symm)

theorem commonPrefixLen_append_right : ∀ (a x : Str), commonPrefixLen a (a ++ x) = a.length
  | [], x => by cases x <;> simp [commonPrefixLen]
  | c :: cs, x => by
    simp [commonPrefixLen, commonPrefixLen_append_right cs x]

theorem commonPrefixLen_append_left : ∀ (v x : Str), commonPrefixLen (v ++ x) v = v.length
  | [], x => by cases x <;> simp [commonPrefixLen]
  | c :: cs, x => by
    simp [commonPrefixLen, commonPrefixLen_append_left cs x]

/-- The partition boundary search on a sorted run whose entries share their first `p`
bytes and whose first entry has the non-zero byte `sc` at offset `p`, when `char`
compares as its byte value: `findBlock` returns the index of the last entry with the byte
`sc` at offset `p` and does not raise `endOfString`. -/
theorem findBlock_sorted (t : Target) (sc : Byte) (p size : Nat) (values : List Entry)
    (eos0 : Bool) (hsize : 1 ≤ size) (hlen : size ≤ values.length)
    (hs : SortedBatch (values.take size)) (A : Entry) (hA : values[0]? = some A)
    (hagree : ∀ i x, i < size → values[i]? = some x → x.2.take p = A.2.take p)
    (hsc : A.2[p]? = some sc) (hz : sc ≠ 0) (hcmp : t.signedChar = false ∨ sc.val < 128) :
    ∃ r, findBlock t sc p size values eos0 = .ok (r, eos0) ∧ r < size
      ∧ ∀ i x, i < size → values[i]? = some x → (i ≤ r ↔ x.2[p]? = some sc) := by
  have hpA : p < A.2.length := by
    rcases List.getElem?_eq_some_iff.1 hsc with ⟨h, _⟩; exact h
  have hget : ∀ i, i < size → (values.take size)[i]? = values[i]? := by
    intro i hi; rw [List.getElem?_take]; simp [hi]
  have hle : ∀ i j x y, i ≤ j → j < size → values[i]? = some x → values[j]? = some y →
      strLe x.2 y.2 := by
    intro i j x y hij hj hx hy
    exact sortedBatch_le hs hij (by rw [hget i (by omega)]; exact hx)
      (by rw [hget j hj]; exact hy)
  have hin : ∀ i, i < size → i < values.length := fun i hi => by omega
  have hbyte : ∀ i, (hi : i < size) → ∃ c', values[i].2[p]? = some c' ∧ sc ≤ c' := by
    intro i hi
    exact getElem?_ge_of_le p A.2 _ sc
      (hle 0 i A _ (by omega) hi hA (List.getElem?_eq_getElem (hin i hi)))
      (hagree i _ hi (List.getElem?_eq_getElem (hin i hi))) hsc
  have hread : ∀ i, i < size → ∃ c, readChar values i p = .ok c := by
    intro i hi
    obtain ⟨c', hc', _⟩ := hbyte i hi
    exact ⟨c', readChar_of_getElem? (List.getElem?_eq_getElem (hin i hi)) hc'⟩
  obtain ⟨⟨r, eos⟩, hfb⟩ := (findBlock_sound t sc p size values eos0 hsize).2 hread
  have hnz : ∀ i c, i < size → readChar values i p = .ok c → c ≠ 0 := by
    intro i c hi hrd
    obtain ⟨c', hc', hle'⟩ := hbyte i hi
    rw [readChar_of_getElem? (List.getElem?_eq_getElem (hin i hi)) hc'] at hrd
    cases hrd
    exact byte_ne_zero_of_le hle' hz
  have heos := findBlock_eos t sc p size values eos0 hsize hnz r eos hfb
  subst heos
  have hr := ((findBlock_sound t sc p size values eos hsize).1 r eos hfb).1
  have h0 : Matches t sc p values 0 := matches_of_getElem? hcmp hA hsc
  have hdown : ∀ i j, i ≤ j → j < size → Matches t sc p values j → Matches t sc p values i := by
    intro i j hij hj hm
    obtain ⟨y, hyv, hyc⟩ := getElem?_of_matches hm hz
    have hi : i < size := by omega
    have hyt : y.2.take (p + 1) = A.2.take (p + 1) :=
      take_succ_eq_of (hagree j y hj hyv) hyc hsc
    have hxt := take_eq_of_between (p + 1) A.2 values[i].2 y.2
      (hle 0 i A _ (by omega) hi hA (List.getElem?_eq_getElem (hin i hi)))
      (hle i j _ y hij hj (List.getElem?_eq_getElem (hin i hi)) hyv) hyt.symm (by omega)
    have hxc := getElem?_of_take_succ_eq hxt
    rw [hsc] at hxc
    exact matches_of_getElem? hcmp (List.getElem?_eq_getElem (hin i hi)) hxc
  have hlast := findBlock_last t sc p size values eos hsize hdown h0 r eos hfb
  refine ⟨r, hfb, hr, ?_⟩
  intro i x hi hx
  constructor
  · intro hir
    obtain ⟨x', hx', hxc⟩ := getElem?_of_matches (hdown i r hir hr hlast.1) hz
    rw [hx] at hx'; cases hx'
    exact hxc
  · intro hxc
    by_contra hcon
    exact hlast.2 i (by omega) hi (matches_of_getElem? hcmp hx hxc)

/-- The two examples of the specification: `apple`, `banana`, `cherry` with prefix limit
`1` gives three one-entry pages, and `apple`, `apply`, `apt` with prefix limit `3` gives
the two pages `{apple, apply}` and `{apt}`. -/
theorem load_examples :
    (load signedTarget 1 fruitBatch 0).map (fun st => st.runs) = .ok [(0, 0), (1, 1), (2, 2)]
      ∧ (load signedTarget 3 appleBatch 0).map (fun st => st.runs) = .ok [(0, 1), (2, 2)] :=
  ⟨rfl, rfl⟩

/-- The partition on a signed-`char` target for strings with bytes above `0x7f`: the
sorted batch `é`, `ü` with prefix limit `1` is split into two pages, although both
strings start with the byte `0xc3`; with an unsigned `char` it is one page. -/
theorem load_highByte_example :
    (load signedTarget 1 accentBatch 0).map (fun st => st.runs) = .ok [(0, 0), (1, 1)]
      ∧ (load unsignedTarget 1 accentBatch 0).map (fun st => st.runs) = .ok [(0, 1)] :=
  ⟨rfl, rfl⟩

/-- On a sorted batch, when `char` compares as its byte value, a range built by `load` is
the maximal run of entries that share the first `min K m` bytes of its first entry, `m`
being the number of bytes of that entry before its first zero byte. -/
theorem loadInv_partition {t : Target} {K : Nat} {values : List Entry} {c0 : Nat}
    {lp : Option Nat} {st : LoadState} (hI : LoadInv t K values c0 values.length lp st)
    (hs : SortedBatch values) (hlow : LowBytes t values) :
    ∀ run ∈ st.runs, ∀ A, values[run.1]? = some A →
      ∀ j x, run.1 ≤ j → values[j]? = some x →
        (j ≤ run.2 ↔ x.2.take (min K (cLen A.2)) = A.2.take (min K (cLen A.2))) := by
  intro run hrun A hA j x hj hx
  have hv := loadInv_runs_valid hI run hrun
  obtain ⟨e', he', hS⟩ := searchLoop_sorted t K values run.1 (values.length - 1) A hs hA
    (by omega) (by omega)
  rw [hI.search run hrun] at he'
  cases he'
  have hjn : j < values.length := by
    rcases List.getElem?_eq_some_iff.1 hx with ⟨h, _⟩; exact h
  constructor
  · intro hje; exact hS.agree j x hj hje hx
  · intro hag
    by_contra hcon
    exact hS.maximal hlow j x (by omega) (by omega) hx hag

theorem strLt_replicate (a : Byte) : ∀ i j : Nat, i < j →
    strLt (List.replicate i a) (List.replicate j a) = true
  | 0, j + 1, _ => by simp [List.replicate_succ, strLt]
  | i + 1, j + 1, h => by
    simp only [List.replicate_succ, strLt, lt_irrefl, decide_False, Bool.false_or,
      decide_True, Bool.true_and]
    exact strLt_replicate a i j (by omega)

theorem sortedBatch_longRun : SortedBatch longRun := by
  unfold SortedBatch longRun
  rw [List.pairwise_map]
  exact List.Pairwise.imp (fun {i j} (h : i < j) => strLt_replicate 97 (i + 1) (j + 1) (by omega))
    (List.pairwise_lt_range 65537)

theorem lowBytes_longRun (t : Target) : LowBytes t longRun := by
  right
  intro e he b hb
  simp only [longRun, List.mem_map, List.mem_range] at he
  obtain ⟨i, _, rfl⟩ := he
  have := List.eq_of_mem_replicate hb
  subst this
  decide

theorem getElem?_longRun (i : Nat) (h : i < 65537) :
    longRun[i]? = some (i, List.replicate (i + 1) 97) := by
  simp [longRun, List.getElem?_map, List.getElem?_range h]

/-- On the batch `longRun` with prefix limit `1`, `load` builds one page for the whole
batch: every string starts with the byte of the first one. -/
theorem load_longRun (t : Target) :
    ∃ st, load t 1 longRun 0 = .ok st ∧ st.runs = [(0, 65536)]
      ∧ st.calls = pageCalls t longRun 0 (0, 65536) := by
  have hlen : longRun.length = 65537 := by simp [longRun]
  have hne : longRun ≠ [] := by
    intro h; rw [h] at hlen; simp at hlen
  obtain ⟨st, hst⟩ := (load_spec t 1 longRun 0).2.2 hne sortedBatch_longRun
  obtain ⟨lp, hI⟩ := (load_spec t 1 longRun 0).1 st hst
  have hcons := hI.runs
  have hpart := loadInv_partition hI sortedBatch_longRun (lowBytes_longRun t)
  have hruns : st.runs = [(0, 65536)] := by
    cases hr : st.runs with
    | nil => rw [hr, hlen] at hcons; simp [Consecutive] at hcons
    | cons r rest =>
      obtain ⟨a, b⟩ := r
      rw [hr, hlen] at hcons
      simp only [Consecutive] at hcons
      obtain ⟨ha, hab, hrest⟩ := hcons
      subst ha
      have hle := (consecutive_le rest (b + 1) 65537 hrest).1
      have hb : 65536 ≤ b := by
        have := (hpart (0, b) (by rw [hr]; exact List.mem_cons_self _ _) _
          (getElem?_longRun 0 (by omega)) 65536 _ (by omega)
          (getElem?_longRun 65536 (by omega))).2
        have hc : cLen (List.replicate (0 + 1) (97 : Byte)) = 1 := by decide
        apply this
        show (List.replicate (65536 + 1) (97 : Byte)).take
            (min 1 (cLen (List.replicate (0 + 1) (97 : Byte))))
          = (List.replicate (0 + 1) (97 : Byte)).take
            (min 1 (cLen (List.replicate (0 + 1) (97 : Byte))))
        rw [hc, List.take_replicate, List.take_replicate]
        rfl
      have hb' : b = 65536 := by omega
      have hrl : rest = [] := List.length_eq_zero.1 (by omega)
      rw [hb', hrl]
  refine ⟨st, hst, hruns, ?_⟩
  rw [hI.calls, hruns]
  simp [callsOf]

theorem findReach_bounds {t : Target} {sc : Byte} {p size : Nat} {values : List Entry}
    {eos0 : Bool} {s e b : Nat} {eos : Bool}
    (h : FindReach t sc p size values eos0 s e b eos) :
    b ≤ s ∧ s ≤ e + 1 ∧ e ≤ size - 1 ∧ (s ≤ e ∨ 0 < s) := by
  induction h with
  | init => omega
  | hit _ hlt _ _ ih => omega
  | miss _ hlt _ _ ih => omega

/-- The state in which the loop of `findBlock` ends is one of the states it goes through. -/
theorem findBlockLoop_reach (t : Target) (sc : Byte) (p size : Nat) (values : List Entry)
    (eos0 : Bool) (r : Nat × Nat × Nat × Bool)
    (h : findBlockLoop t sc p values size 0 (size - 1) 0 eos0 = .ok r) :
    FindReach t sc p size values eos0 r.1 r.2.1 r.2.2.1 r.2.2.2 ∧ ¬ r.1 < r.2.1 :=
  (findBlockLoop_inv t sc p values (FindReach t sc p size values eos0)
    (fun _ _ _ _ h => (findReach_bounds h).1)
    (fun _ _ _ _ _ h hlt hrd hm => FindReach.hit h hlt hrd hm)
    (fun _ _ _ _ _ h hlt hrd hm => FindReach.miss h hlt hrd hm)
    size 0 (size - 1) 0 eos0 (by omega) FindReach.init).1 r h

/-- On a sorted batch every state of the offset loop satisfies `SearchInv`. -/
theorem searchReach_inv {t : Target} {K : Nat} {values : List Entry} {start : Nat} {A : Entry}
    (hs : SortedBatch values) (hA : values[start]? = some A)
    {pos e : Nat} {eos : Bool} (h : SearchReach t K values start pos e eos) :
    SearchInv t K values start (values.length - 1) A pos e eos := by
  have hstart : start < values.length := by
    rcases List.getElem?_eq_some_iff.1 hA with ⟨h, _⟩; exact h
  induction h with
  | init =>
    exact ⟨by omega, le_refl _, Nat.zero_le _, Nat.zero_le _, fun _ _ _ _ _ => by simp, rfl,
      fun _ i x h1 h2 _ => by omega⟩
  | step _ hpos _ hrd hz hfb ih =>
    exact searchInv_step t K values start (values.length - 1) A hs hA (by omega) _ _ _ _ _ _
      ih hpos hrd hz hfb

/-- The state in which the offset loop of `load` ends is one of the states it goes
through, and the loop test fails there. -/
theorem searchLoop_reach (t : Target) (K : Nat) (values : List Entry) (start e' : Nat)
    (h : searchLoop t K values start K 0 (values.length - 1) false = .ok e') :
    ∃ pos eos, SearchReach t K values start pos e' eos
      ∧ (K ≤ pos ∨ eos = true ∨ readChar values start pos = .ok 0) :=
  (searchLoop_inv t K values start (SearchReach t K values start)
    (fun _ _ _ _ _ _ hI hpos heos hrd hz hfb => SearchReach.step hI hpos heos hrd hz hfb)
    K 0 (values.length - 1) false (by omega) SearchReach.init).1 e' h

theorem readChar_ok_iff (vs : List Entry) (i p : Nat) :
    (∃ c, readChar vs i p = .ok c) ↔ ∃ x, vs[i]? = some x ∧ p ≤ x.2.length := by
  constructor
  · rintro ⟨c, hc⟩
    obtain ⟨x, hx, hch⟩ := readChar_ok hc
    refine ⟨x, hx, ?_⟩
    by_contra hcon
    unfold charAt at hch
    have h1 : ¬ p < x.2.length := by omega
    have h2 : ¬ p = x.2.length := by omega
    simp [h1, h2, throw, throwThe, MonadExceptOf.throw] at hch
  · rintro ⟨x, hx, hp⟩
    exact ⟨_, readChar_of_le hx hp⟩

theorem entryAt_ok_iff (vs : List Entry) (i : Nat) :
    (∃ e, entryAt vs i = .ok e) ↔ i < vs.length := by
  constructor
  · rintro ⟨e, he⟩
    by_contra hcon
    have : vs[i]? = none := List.getElem?_eq_none (by omega)
    simp [entryAt, this, throw, throwThe, MonadExceptOf.throw] at he
  · intro h
    exact ⟨_, entryAt_of_lt h⟩

theorem le_commonPrefixLen_of_take_eq : ∀ (m : Nat) (a x : Str),
    x.take m = a.take m → m ≤ a.length → m ≤ commonPrefixLen a x
  | 0, _, _, _, _ => Nat.zero_le _
  | m + 1, [], _, _, h => by simp at h
  | m + 1, a :: as, [], h, _ => by simp at h
  | m + 1, a :: as, x :: xs, h, hl => by
    simp only [List.take_succ_cons, List.cons.injEq] at h
    have ih := le_commonPrefixLen_of_take_eq m as xs h.2 (by simpa using hl)
    simp only [commonPrefixLen, h.1, if_true]
    omega

theorem cLen_eq_length : ∀ s : Str, (0 : Byte) ∉ s → cLen s = s.length
  | [], _ => rfl
  | c :: cs, h => by
    simp only [List.mem_cons, not_or] at h
    have hc : ¬ c = 0 := fun h0 => h.1 h0.symm
    simp only [cLen, hc, if_false, List.length_cons, cLen_eq_length cs h.2]

/-- With the cursor on an entry whose string is empty, the offset loop of `load` returns
the end it was given without calling `findBlock`. -/
theorem searchLoop_empty (t : Target) (K : Nat) (values : List Entry) (start e0 : Nat)
    (A : Entry) (hA : values[start]? = some A) (hempty : A.2 = []) :
    searchLoop t K values start K 0 e0 false = .ok e0 := by
  have hrd : readChar values start 0 = .ok 0 := by
    rw [readChar_of_le hA (Nat.zero_le _), hempty]
    rfl
  cases K with
  | zero => simp [searchLoop, pure, Except.pure]
  | succ k => simp [searchLoop, hrd, pure, Except.pure]

/-- On a batch whose first string is empty `load` builds one page for the whole batch. -/
theorem load_emptyFirst (t : Target) (K : Nat) (values : List Entry) (c0 : Nat) (A : Entry)
    (hA : values[0]? = some A) (hempty : A.2 = []) :
    ∃ st page, load t K values c0 = .ok st ∧ st.runs = [(0, values.length - 1)]
      ∧ st.heap = [page] ∧ page.nextPage = none ∧ decodePage page = some values
      ∧ st.calls.map (fun c => (c.id, c.value)) = values := by
  have hn : 0 < values.length := by
    rcases List.getElem?_eq_some_iff.1 hA with ⟨h, _⟩; exact h
  have hn0 : ¬ values.length = 0 := by omega
  obtain ⟨page, calls, hcp, hpb⟩ := createPage_spec t 0 (values.length - 1 - 0 + 1)
    (values.drop 0) (by omega) (by simp only [List.length_drop]; omega)
  have hsl := searchLoop_empty t K values 0 (values.length - 1) A hA hempty
  have hlt : ¬ (values.length - 1 < values.length - 1) := by omega
  obtain ⟨m, hm⟩ : ∃ m, values.length = m + 1 := ⟨values.length - 1, by omega⟩
  have hload : load t K values c0
      = .ok ⟨linkPage ([] ++ [page]) none 0, [] ++ calls, c0 + 1,
          [] ++ [(0, values.length - 1)]⟩ := by
    simp only [load, hn0, if_false]
    rw [show loadLoop t K values values.length 0 none ⟨[], [], c0, []⟩
        = loadLoop t K values (m + 1) 0 none ⟨[], [], c0, []⟩ by rw [hm]]
    simp only [loadLoop, hsl, List.length_nil, hcp, bind, Except.bind, hlt, if_false, pure,
      Except.pure]
  have htake : (values.drop 0).take (values.length - 1 - 0 + 1) = values := by
    rw [List.drop_zero]
    exact List.take_of_length_le (by omega)
  obtain ⟨a, ds, hv⟩ : ∃ a ds, values = a :: ds := by
    cases hvs : values with
    | nil => rw [hvs] at hn; simp at hn
    | cons a ds => exact ⟨a, ds, rfl⟩
  refine ⟨_, page, hload, by simp, by simp [linkPage], hpb.link, ?_, ?_⟩
  · have hd := hpb.data
    rw [htake] at hd
    rw [hv] at hd ⊢
    exact decodePage_pageData page a ds hd
  · have := hpb.entries
    rw [htake] at this
    simpa using this

theorem runEntries_cons (values : List Entry) (run : Nat × Nat) (A : Entry)
    (hA : values[run.1]? = some A) :
    runEntries values run = A :: ((values.drop run.1).take (run.2 - run.1 + 1)).drop 1 := by
  have h0 : 0 < (values.drop run.1).length := by
    rcases List.getElem?_eq_some_iff.1 hA with ⟨h, _⟩
    simp only [List.length_drop]; omega
  have := take_eq_head_cons (values.drop run.1) (run.2 - run.1 + 1) (by omega) h0
  have hA' : (values.drop run.1)[0] = A := by
    have h1 : (values.drop run.1)[0]? = some A := by
      rw [List.getElem?_drop]; exact hA
    rw [List.getElem?_eq_getElem h0] at h1
    exact Option.some.inj h1
  rw [hA'] at this
  exact this

theorem deltaStep_snap (t : Target) (addr : Nat) (values : List Entry) (i : Nat) (b : Build)
    (anchor : Entry) (hil : i < values.length) (hb : SnapInv t anchor b) :
    ∃ b', deltaStep t addr values anchor.2 b i = .ok b' ∧ SnapInv t anchor b' := by
  refine ⟨_, deltaStep_eq t addr values _ i b hil, ?_⟩
  obtain ⟨c0, rest, hc, h1, h2, h3, h4⟩ := hb.calls
  constructor
  · simp only [writeDelta, writeValue, writeId, startDelta, Writer.put, hb.ptr]
    simp [widthSum, Field.width]
    omega
  · refine ⟨c0, rest ++ [_], by rw [hc]; rfl, h1, h2, h3, ?_⟩
    intro c hcm
    simp only [List.mem_append, List.mem_singleton] at hcm
    rcases hcm with hcm | hcm
    · exact h4 c hcm
    · subst hcm
      refine ⟨b.w.data, ?_, ?_⟩
      · simp [writeDelta, writeValue, writeId, startDelta, Writer.put, deltaFields]
      · simp only [startDelta, Writer.put, hb.ptr, Field.width]

/-- The callback invocations `createPage` makes and what the buffer held at each: for the
anchor, its header only; for each delta entry, everything up to and including the fields
of that entry. -/
theorem createPage_snapshots (t : Target) (addr size : Nat) (values : List Entry)
    (h0 : 0 < size) (hs : size ≤ values.length) :
    ∃ page calls c0 rest A, createPage t addr size values = .ok (page, calls)
      ∧ values[0]? = some A ∧ calls = c0 :: rest
      ∧ c0.written = [Field.header Header.startOfPrefix]
      ∧ c0.valuePtr = t.ptrSize + t.headerSize
      ∧ (c0.id, c0.value) = A
      ∧ ∀ c ∈ rest, ∃ pre, c.written = pre ++ deltaFields A.2 (c.id, c.value)
          ∧ c.valuePtr = t.ptrSize + widthSum t pre + t.headerSize := by
  have hv0 : 0 < values.length := by omega
  obtain ⟨b, hb, hI⟩ := foldlM_range'_inv
    (deltaStep t addr values (values[0].2))
    (fun _ b => SnapInv t values[0] b)
    (size - 1) 1
    ⟨writeValue t (writeId t (startPrefix t (writeLink t ⟨none, [], 0⟩)).1 values[0].1)
        values[0].2, (0 + 1) % 65536,
      [⟨addr, 0, (startPrefix t (writeLink t ⟨none, [], 0⟩)).2, values[0].1, values[0].2,
        (startPrefix t (writeLink t ⟨none, [], 0⟩)).1.data⟩]⟩
    (by
      constructor
      · simp [writeValue, writeId, startPrefix, writeLink, Writer.put, widthSum, Field.width]
        omega
      · refine ⟨_, [], rfl, ?_, ?_, rfl, ?_⟩
        · simp [startPrefix, writeLink, Writer.put]
        · simp [startPrefix, writeLink, Writer.put, Field.width]
        · intro c hc; cases hc)
    (fun i b _ hlt hI => deltaStep_snap t addr values i b values[0] (by omega) hI)
  obtain ⟨c0, rest, hc, h1, h2, h3, h4⟩ := hI.calls
  refine ⟨⟨(endPage t b.w).nextPage, (endPage t b.w).data,
    pageBytes t values[0] ((values.take size).drop 1), (endPage t b.w).dataPtr⟩, b.calls,
    c0, rest, values[0], ?_, List.getElem?_eq_getElem hv0, hc, h1, h2, h3, h4⟩
  simp only [createPage, h0, if_true, getPageSize_eq t size values h0 hs, bind, Except.bind,
    entryAt_of_lt hv0, pure, Except.pure]
  simp only [hb]

/-! ## The claims on the page loader -/


/-- C1 (round trip): on a non-empty batch sorted by string with pairwise distinct strings,
for every prefix limit and target, `load` returns, and decoding the page chain it built
(per page in link order: the anchor, then each delta as the first `L` bytes of the anchor
followed by the stored suffix) yields exactly the input batch. -/
theorem load_roundTrip (t : Target) (K : Nat) (values : List Entry) (c0 : Nat)
    (hne : values ≠ []) (hs : SortedBatch values) :
    ∃ st, load t K values c0 = .ok st ∧ decodeChain st.heap = some values := by
  obtain ⟨st, hst⟩ := (load_spec t K values c0).2.2 hne hs
  obtain ⟨lp, hI⟩ := (load_spec t K values c0).1 st hst
  refine ⟨st, hst, ?_⟩
  have hn : 0 < values.length := List.length_pos.2 hne
  have hm : 0 < st.heap.length := by
    have := (consecutive_le st.runs 0 values.length hI.runs).1
    cases hr : st.runs with
    | nil =>
      have h0 := hI.runs
      rw [hr] at h0
      simp only [Consecutive] at h0
      omega
    | cons r rs => rw [hI.len, hr]; simp
  have hne0 : ¬ st.heap.length = 0 := by omega
  have hw := walk_linked st.heap (loadInv_links hI) st.heap.length 0 hm (by omega)
  have hf := foldr_decode t values st.heap st.runs hI.len (loadInv_runs_valid hI)
    (fun i run hrun => ⟨_, hI.heap i run hrun⟩) st.heap.length 0 (by rw [hI.len]; omega)
  simp only [decodeChain, hne0, if_false, hw, Nat.sub_zero, hf, List.drop_zero,
    join_runEntries values st.runs 0 hI.runs]

/-- Witness of C1: the batch `apple`, `apply`, `apt` with prefix limit `3`. -/
theorem load_roundTrip_witness :
    appleBatch ≠ [] ∧ SortedBatch appleBatch
      ∧ ∃ st, load signedTarget 3 appleBatch 0 = .ok st
        ∧ decodeChain st.heap = some appleBatch :=
  ⟨by decide, by decide, load_roundTrip signedTarget 3 appleBatch 0 (by decide) (by decide)⟩

/-- C2 (callback completeness): on a non-empty sorted batch, for every prefix limit,
`load` returns having invoked the callback once per input entry: the number of
invocations is the batch size and the reported (identifier, string) pairs are, in order,
the entries of the batch. -/
theorem load_callbacks (t : Target) (K : Nat) (values : List Entry) (c0 : Nat)
    (hne : values ≠ []) (hs : SortedBatch values) :
    ∃ st, load t K values c0 = .ok st ∧ st.calls.length = values.length
      ∧ st.calls.map (fun c => (c.id, c.value)) = values := by
  obtain ⟨st, hst⟩ := (load_spec t K values c0).2.2 hne hs
  obtain ⟨lp, hI⟩ := (load_spec t K values c0).1 st hst
  have hmap : st.calls.map (fun c => (c.id, c.value)) = values := by
    rw [hI.calls, callsOf_entries t values st.runs 0 (loadInv_runs_valid hI),
      join_runEntries values st.runs 0 hI.runs, List.drop_zero]
  refine ⟨st, hst, ?_, hmap⟩
  have := congrArg List.length hmap
  simpa using this

/-- Witness of C2: the batch `apple`, `apply`, `apt` with prefix limit `3`. -/
theorem load_callbacks_witness :
    appleBatch ≠ [] ∧ SortedBatch appleBatch
      ∧ ∃ st, load signedTarget 3 appleBatch 0 = .ok st ∧ st.calls.length = appleBatch.length
        ∧ st.calls.map (fun c => (c.id, c.value)) = appleBatch :=
  ⟨by decide, by decide, load_callbacks signedTarget 3 appleBatch 0 (by decide) (by decide)⟩

/-- C7 (chain integrity): on a non-empty sorted batch `load` returns with at least one
page; the page built `i`-th links to the page built next and the last page built has an
empty link, so the walk from the first page meets every page built exactly once, in
building order, and ends at an empty link. -/
theorem load_chain (t : Target) (K : Nat) (values : List Entry) (c0 : Nat)
    (hne : values ≠ []) (hs : SortedBatch values) :
    ∃ st, load t K values c0 = .ok st ∧ 0 < st.heap.length
      ∧ st.heap.length = st.runs.length
      ∧ (∀ i, i < st.heap.length → ∃ p, st.heap[i]? = some p
          ∧ p.nextPage = if i + 1 < st.heap.length then some (i + 1) else none)
      ∧ walk st.heap st.heap.length (some 0) = some (List.range st.heap.length) := by
  obtain ⟨st, hst⟩ := (load_spec t K values c0).2.2 hne hs
  obtain ⟨lp, hI⟩ := (load_spec t K values c0).1 st hst
  have hn : 0 < values.length := List.length_pos.2 hne
  have hm : 0 < st.heap.length := by
    cases hr : st.runs with
    | nil =>
      have h0 := hI.runs
      rw [hr] at h0
      simp only [Consecutive] at h0
      omega
    | cons r rs => rw [hI.len, hr]; simp
  refine ⟨st, hst, hm, hI.len, loadInv_links hI, ?_⟩
  rw [walk_linked st.heap (loadInv_links hI) st.heap.length 0 hm (by omega),
    List.range_eq_range']
  simp

/-- Witness of C7: the batch `apple`, `apply`, `apt` with prefix limit `3`. -/
theorem load_chain_witness :
    appleBatch ≠ [] ∧ SortedBatch appleBatch
      ∧ ∃ st, load signedTarget 3 appleBatch 0 = .ok st ∧ 0 < st.heap.length
        ∧ st.heap.length = st.runs.length
        ∧ (∀ i, i < st.heap.length → ∃ p, st.heap[i]? = some p
            ∧ p.nextPage = if i + 1 < st.heap.length then some (i + 1) else none)
        ∧ walk st.heap st.heap.length (some 0) = some (List.range st.heap.length) :=
  ⟨by decide, by decide, load_chain signedTarget 3 appleBatch 0 (by decide) (by decide)⟩


/-- C10 (termination and coverage of the last entry): on every non-empty batch and for
every prefix limit, `load` never uses up the budget of `n` iterations of its outer loop
and never fails an assertion (the only fault left is a read that is out of bounds, which
a sorted batch excludes); when it returns, the iterations are at most `n`, their ranges
follow one another from index `0` (each starts at the end of the previous one plus one)
and the last range ends at index `n - 1`. -/
theorem load_terminates (t : Target) (K : Nat) (values : List Entry) (c0 : Nat)
    (hne : values ≠ []) :
    (∀ f, load t K values c0 = .error f → f = Fault.outOfBounds)
    ∧ (SortedBatch values → ∃ st, load t K values c0 = .ok st)
    ∧ ∀ st, load t K values c0 = .ok st →
        st.runs.length ≤ values.length ∧ st.heap.length = st.runs.length
        ∧ Consecutive 0 st.runs values.length
        ∧ ∃ s, st.runs.getLast? = some (s, values.length - 1) := by
  refine ⟨(load_spec t K values c0).2.1, (load_spec t K values c0).2.2 hne, ?_⟩
  intro st hst
  obtain ⟨lp, hI⟩ := (load_spec t K values c0).1 st hst
  have h1 := (consecutive_le st.runs 0 values.length hI.runs).1
  exact ⟨by omega, hI.len, hI.runs,
    consecutive_getLast st.runs 0 values.length hI.runs (loadInv_runs_ne_nil hI hne)⟩

/-- Witness of C10: the batch `apple`, `apply`, `apt` with prefix limit `3`. -/
theorem load_terminates_witness :
    appleBatch ≠ []
    ∧ (∀ f, load signedTarget 3 appleBatch 0 = .error f → f = Fault.outOfBounds)
    ∧ (SortedBatch appleBatch → ∃ st, load signedTarget 3 appleBatch 0 = .ok st)
    ∧ ∀ st, load signedTarget 3 appleBatch 0 = .ok st →
        st.runs.length ≤ appleBatch.length ∧ st.heap.length = st.runs.length
        ∧ Consecutive 0 st.runs appleBatch.length
        ∧ ∃ s, st.runs.getLast? = some (s, appleBatch.length - 1) :=
  ⟨by decide, load_terminates signedTarget 3 appleBatch 0 (by decide)⟩

/-- C6 (single entry): on a batch of exactly one entry, for every prefix limit and every
string, `load` returns with one iteration over the range `[0, 0]` and one page; the page
holds the anchor and no delta, its link is empty, and the callback is invoked exactly
once, for that page, with position `0` and the entry. -/
theorem load_single (t : Target) (K : Nat) (e : Entry) (c0 : Nat) :
    ∃ st page, load t K [e] c0 = .ok st ∧ st.runs = [(0, 0)] ∧ st.heap = [page]
      ∧ page.nextPage = none
      ∧ page.data = anchorFields e ++ [Field.header Header.endOfPage]
      ∧ st.calls.map (fun c => (c.page, c.deltaNumber, c.id, c.value)) = [(0, 0, e.1, e.2)] := by
  obtain ⟨st, hst⟩ := (load_spec t K [e] c0).2.2 (by simp) (by simp [SortedBatch])
  obtain ⟨lp, hI⟩ := (load_spec t K [e] c0).1 st hst
  have hruns : st.runs = [(0, 0)] := by
    have h0 := hI.runs
    cases hr : st.runs with
    | nil => rw [hr] at h0; simp [Consecutive] at h0
    | cons r rest =>
      obtain ⟨a, b⟩ := r
      rw [hr] at h0
      simp only [Consecutive, List.length_singleton] at h0
      obtain ⟨ha, hab, hrest⟩ := h0
      have hle := (consecutive_le rest (b + 1) 1 hrest).1
      have hb : b = 0 := by omega
      have hrl : rest = [] := List.length_eq_zero.1 (by omega)
      rw [ha, hb, hrl]
  obtain ⟨page, hcp, hpb, hbp⟩ := builtPage_spec t [e] 0 (0, 0) none (le_refl _) (by simp)
  have hheap := hI.heap 0 (0, 0) (by rw [hruns]; rfl)
  have hlen := hI.len
  rw [hruns] at hheap hlen
  simp only [List.length_singleton, Nat.lt_irrefl, if_false, hbp] at hheap hlen
  have hpe : ({ page with nextPage := none } : Page) = page := by
    have := hpb.link
    cases page
    simp only at this
    subst this
    rfl
  rw [hpe] at hheap
  have hh : st.heap = [page] := by
    cases hs : st.heap with
    | nil => rw [hs] at hlen; simp at hlen
    | cons p ps =>
      rw [hs] at hlen hheap
      simp only [List.length_cons, Nat.add_right_cancel_iff] at hlen
      simp only [List.getElem?_cons_zero, Option.some.injEq] at hheap
      have hps : ps = [] := List.length_eq_zero.1 (by omega)
      rw [hheap, hps]
  refine ⟨st, page, hst, hruns, hh, hpb.link, ?_, ?_⟩
  · have := hpb.data
    simpa [pageData, encodeDeltas] using this
  · have hcalls := hI.calls
    rw [hruns] at hcalls
    simp only [callsOf, List.append_nil] at hcalls
    have h1 := hpb.entries
    have h2 := hpb.positions
    have h3 := hpb.pages
    rw [← hcalls] at h1 h2 h3
    cases hc : st.calls with
    | nil => rw [hc] at h1; simp at h1
    | cons c cs =>
      rw [hc] at h1 h2 h3
      have hcs : cs = [] := by
        have := congrArg List.length h1
        simpa using this
      subst hcs
      simp only [List.map_cons, List.map_nil, List.take_succ_cons, List.take_zero,
        List.cons.injEq, and_true, List.drop_zero, List.mem_singleton, forall_eq,
        Nat.sub_self, Nat.zero_add] at h1 h2 h3
      have h2' : c.deltaNumber = 0 := by
        simpa [List.range_succ] using h2
      simp only [List.map_cons, List.map_nil, h3, h2', ← h1]

/-- C4 (exact sizing): for a run of `size >= 1` entries, `createPage` returns a page whose
allocated size is the value of `getPageSize` (link field; anchor header, identifier,
length field and literal bytes; per delta header, identifier, prefix-length field, length
field and suffix bytes; end-of-page header), and the write cursor ends exactly that many
bytes behind the buffer start, which is the link field plus the bytes of the fields
written. -/
theorem createPage_exactSize (t : Target) (addr size : Nat) (values : List Entry)
    (h1 : 1 ≤ size) (h2 : size ≤ values.length) :
    ∃ page calls A, createPage t addr size values = .ok (page, calls)
      ∧ values[0]? = some A
      ∧ getPageSize t size values = .ok page.pageSize
      ∧ page.pageSize = t.ptrSize
          + (t.headerSize + t.idSize + t.stringSizeSize + A.2.length)
          + (size - 1) * (t.headerSize + t.idSize + t.prefixSizeSize + t.stringSizeSize)
          + suffixBytes A.2 ((values.take size).drop 1) + t.headerSize
      ∧ page.written = page.pageSize
      ∧ page.written = t.ptrSize + widthSum t page.data := by
  obtain ⟨page, calls, hcp, hpb⟩ := createPage_spec t addr size values (by omega) h2
  have hv0 : 0 < values.length := by omega
  refine ⟨page, calls, values[0], hcp, List.getElem?_eq_getElem hv0, hpb.computed, ?_,
    hpb.written, hpb.bytes⟩
  have h := hpb.computed
  rw [getPageSize_eq t size values (by omega) h2] at h
  have hlen : ((values.take size).drop 1).length = size - 1 := by
    simp [List.length_take, Nat.min_eq_left h2]
  simp only [Except.ok.injEq, pageBytes, hlen] at h
  exact h.symm

/-- Witness of C4: the page of the run `apple`, `apply`. -/
theorem createPage_exactSize_witness :
    1 ≤ 2 ∧ 2 ≤ appleBatch.length
      ∧ ∃ page calls A, createPage signedTarget 0 2 appleBatch = .ok (page, calls)
        ∧ appleBatch[0]? = some A
        ∧ getPageSize signedTarget 2 appleBatch = .ok page.pageSize
        ∧ page.pageSize = signedTarget.ptrSize
            + (signedTarget.headerSize + signedTarget.idSize + signedTarget.stringSizeSize
              + A.2.length)
            + (2 - 1) * (signedTarget.headerSize + signedTarget.idSize
              + signedTarget.prefixSizeSize + signedTarget.stringSizeSize)
            + suffixBytes A.2 ((appleBatch.take 2).drop 1) + signedTarget.headerSize
        ∧ page.written = page.pageSize
        ∧ page.written = signedTarget.ptrSize + widthSum signedTarget page.data :=
  ⟨by decide, by decide, createPage_exactSize signedTarget 0 2 appleBatch (by decide) (by decide)⟩

/-- C5 (delta correctness): in the page `createPage` writes for a run of `size >= 1`
entries with first entry `A`, the fields behind the anchor are, for every further entry
`V` of the run in order, a delta entry that stores the identifier of `V`, a length `L` and
a suffix, both computed against `A`: `L` is the length of the longest common
leading-byte run of `A` and `V` (the first `L` bytes agree and the bytes at offset `L`,
where both exist, differ), `L <= min(|A|, |V|)`, the suffix is `V[L:]`, and
`A[0:L] ++ suffix = V`; `L = |A|` when `V` extends `A`, and the suffix is empty when `V`
is a truncation of `A`. -/
theorem createPage_delta (t : Target) (addr size : Nat) (values : List Entry)
    (h1 : 1 ≤ size) (h2 : size ≤ values.length) :
    ∃ page calls A, createPage t addr size values = .ok (page, calls)
      ∧ values[0]? = some A
      ∧ page.data = anchorFields A ++ encodeDeltas A.2 ((values.take size).drop 1)
          ++ [Field.header Header.endOfPage]
      ∧ ∀ V ∈ (values.take size).drop 1, ∃ L suffix,
          deltaFields A.2 V = [Field.header Header.startOfDelta, Field.id V.1,
            Field.prefixSize L, Field.stringSize suffix.length, Field.chars suffix]
          ∧ L ≤ min A.2.length V.2.length
          ∧ A.2.take L = V.2.take L
          ∧ (∀ c, A.2[L]? = some c → V.2[L]? ≠ some c)
          ∧ suffix = V.2.drop L
          ∧ A.2.take L ++ suffix = V.2
          ∧ (A.2 <+: V.2 → L = A.2.length)
          ∧ (V.2 <+: A.2 → suffix = []) := by
  obtain ⟨page, calls, hcp, hpb⟩ := createPage_spec t addr size values (by omega) h2
  have hv0 : 0 < values.length := by omega
  refine ⟨page, calls, values[0], hcp, List.getElem?_eq_getElem hv0, ?_, ?_⟩
  · have := hpb.data
    rw [take_eq_head_cons values size (by omega) hv0] at this
    rw [this]
    simp [pageData]
  · intro V _
    have hle := commonPrefixLen_le values[0].2 V.2
    refine ⟨commonPrefixLen values[0].2 V.2, V.2.drop (commonPrefixLen values[0].2 V.2),
      rfl, by omega, take_commonPrefixLen _ _, commonPrefixLen_maximal _ _, rfl,
      take_append_delta _ _, ?_, ?_⟩
    · rintro ⟨x, hx⟩
      rw [← hx, commonPrefixLen_append_right]
    · rintro ⟨x, hx⟩
      rw [← hx, commonPrefixLen_append_left]
      simp

/-- Witness of C5: the page of the run `apple`, `apply`. -/
theorem createPage_delta_witness :
    1 ≤ 2 ∧ 2 ≤ appleBatch.length
      ∧ ∃ page calls A, createPage signedTarget 0 2 appleBatch = .ok (page, calls)
        ∧ appleBatch[0]? = some A
        ∧ page.data = anchorFields A ++ encodeDeltas A.2 ((appleBatch.take 2).drop 1)
            ++ [Field.header Header.endOfPage]
        ∧ ∀ V ∈ (appleBatch.take 2).drop 1, ∃ L suffix,
            deltaFields A.2 V = [Field.header Header.startOfDelta, Field.id V.1,
              Field.prefixSize L, Field.stringSize suffix.length, Field.chars suffix]
            ∧ L ≤ min A.2.length V.2.length
            ∧ A.2.take L = V.2.take L
            ∧ (∀ c, A.2[L]? = some c → V.2[L]? ≠ some c)
            ∧ suffix = V.2.drop L
            ∧ A.2.take L ++ suffix = V.2
            ∧ (A.2 <+: V.2 → L = A.2.length)
            ∧ (V.2 <+: A.2 → suffix = []) :=
  ⟨by decide, by decide, createPage_delta signedTarget 0 2 appleBatch (by decide) (by decide)⟩

/-- C8, as the code has it (callback positions): for a run of `size >= 1` entries
`createPage` invokes the callback once per entry, in order, and the position it passes for
the `i`-th entry is `i mod 65536`, the value of the 16-bit counter `deltaNumber`; the
positions are `0, 1, ..., size - 1` when `size <= 65536`. -/
theorem createPage_positions (t : Target) (addr size : Nat) (values : List Entry)
    (h1 : 1 ≤ size) (h2 : size ≤ values.length) :
    ∃ page calls, createPage t addr size values = .ok (page, calls)
      ∧ calls.length = size
      ∧ calls.map (fun c => (c.id, c.value)) = values.take size
      ∧ calls.map (fun c => c.deltaNumber) = (List.range size).map (fun i => i % 65536)
      ∧ (size ≤ 65536 → calls.map (fun c => c.deltaNumber) = List.range size) := by
  obtain ⟨page, calls, hcp, hpb⟩ := createPage_spec t addr size values (by omega) h2
  refine ⟨page, calls, hcp, ?_, hpb.entries, hpb.positions, ?_⟩
  · have := congrArg List.length hpb.positions
    simpa using this
  · intro hsz
    rw [hpb.positions]
    apply List.ext_getElem?
    intro i
    simp only [List.getElem?_map]
    by_cases hi : i < size
    · rw [List.getElem?_range hi]
      simp only [Option.map_some', Option.some.injEq]
      exact Nat.mod_eq_of_lt (by omega)
    · have : (List.range size)[i]? = none := by
        rw [List.getElem?_eq_none_iff]; simp; omega
      rw [this]; rfl

/-- Witness of C8 as amended: the page of the run `apple`, `apply`. -/
theorem createPage_positions_witness :
    1 ≤ 2 ∧ 2 ≤ appleBatch.length
      ∧ ∃ page calls, createPage signedTarget 0 2 appleBatch = .ok (page, calls)
        ∧ calls.length = 2
        ∧ calls.map (fun c => (c.id, c.value)) = appleBatch.take 2
        ∧ calls.map (fun c => c.deltaNumber) = (List.range 2).map (fun i => i % 65536)
        ∧ (2 ≤ 65536 → calls.map (fun c => c.deltaNumber) = List.range 2) :=
  ⟨by decide, by decide, createPage_positions signedTarget 0 2 appleBatch (by decide) (by decide)⟩

/-- C8 fails as stated: on the sorted batch `a`, `aa`, `aaa`, ... of 65537 entries with
prefix limit `1`, `load` builds one page for the whole batch, and the callback for its
last entry (index `65536`) is passed position `0`, not `65536`; so the positions passed
for this page are not `0, 1, ..., 65536`. -/
theorem createPage_positions_counterexample :
    SortedBatch longRun
      ∧ ∃ st, load signedTarget 1 longRun 0 = .ok st ∧ st.runs = [(0, 65536)]
        ∧ (st.calls.map (fun c => c.deltaNumber))[65536]? = some 0
        ∧ st.calls.map (fun c => c.deltaNumber) ≠ List.range 65537 := by
  have hlen : longRun.length = 65537 := by simp [longRun]
  obtain ⟨st, hst, hruns, hcalls⟩ := load_longRun signedTarget
  obtain ⟨page, _, hpb, _⟩ := builtPage_spec signedTarget longRun 0 (0, 65536) none
    (by omega) (by rw [hlen]; omega)
  have hpos : st.calls.map (fun c => c.deltaNumber)
      = (List.range 65537).map (fun j => j % 65536) := by
    rw [hcalls]; exact hpb.positions
  have h0 : (st.calls.map (fun c => c.deltaNumber))[65536]? = some 0 := by
    rw [hpos, List.getElem?_map, List.getElem?_range (by omega)]
    rfl
  refine ⟨sortedBatch_longRun, st, hst, hruns, h0, ?_⟩
  intro h
  rw [h, List.getElem?_range (by omega)] at h0
  cases h0

/-- C9 at its failing input: on a target with a signed plain `char`, for the sorted run
`é`, `ü` (both start with the byte `0xc3`), the search byte `0xc3` and offset `0`,
`findBlock` returns index `0`, although the last entry with that byte at offset `0` is at
index `1`; with an unsigned plain `char` the same call returns `1`. -/
theorem findBlock_highByte_failing :
    SortedBatch accentBatch
      ∧ (∀ x ∈ accentBatch, x.2[0]? = some (195 : Byte))
      ∧ findBlock signedTarget 195 0 2 accentBatch false = .ok (0, false)
      ∧ findBlock unsignedTarget 195 0 2 accentBatch false = .ok (1, false) :=
  ⟨by decide, by decide, rfl, rfl⟩

/-- C3, as the code has it (partitioning): on a non-empty batch sorted by string with
distinct strings, for every prefix limit `K`, when plain `char` is unsigned on the target
or no string of the batch has a byte above `0x7f`, `load` returns; the ranges it built
follow one another from index `0` to the end of the batch, the `i`-th page holds the
entries of the `i`-th range, and each range is the maximal run, from its first entry `A`
on, of the entries that agree with `A` on their first `min K m` bytes, `m` being the
number of bytes of `A` before its first zero byte (its length when it has none): an entry
at or behind `A` is in the range of `A` if and only if it agrees with `A` on these
bytes. -/
theorem load_partition (t : Target) (K : Nat) (values : List Entry) (c0 : Nat)
    (hne : values ≠ []) (hs : SortedBatch values) (hlow : LowBytes t values) :
    ∃ st, load t K values c0 = .ok st
      ∧ Consecutive 0 st.runs values.length
      ∧ (∀ (i : Nat) (run : Nat × Nat), st.runs[i]? = some run →
          ∃ p, st.heap[i]? = some p ∧ decodePage p = some (runEntries values run))
      ∧ ∀ run ∈ st.runs, ∀ A, values[run.1]? = some A →
          ∀ j x, run.1 ≤ j → values[j]? = some x →
            (j ≤ run.2 ↔ x.2.take (min K (cLen A.2)) = A.2.take (min K (cLen A.2))) := by
  obtain ⟨st, hst⟩ := (load_spec t K values c0).2.2 hne hs
  obtain ⟨lp, hI⟩ := (load_spec t K values c0).1 st hst
  refine ⟨st, hst, hI.runs, ?_, ?_⟩
  · intro i run hrun
    have hv := loadInv_runs_valid hI run (List.mem_iff_getElem?.2 ⟨i, hrun⟩)
    exact ⟨_, hI.heap i run hrun, decodePage_builtPage t values i run _ hv.1 hv.2⟩
  · intro run hrun A hA j x hj hx
    exact loadInv_partition hI hs hlow run hrun A hA j x hj hx

/-- Witness of C3 as amended: the batch `apple`, `apply`, `apt` with prefix limit `3`. -/
theorem load_partition_witness :
    appleBatch ≠ [] ∧ SortedBatch appleBatch ∧ LowBytes signedTarget appleBatch
      ∧ ∃ st, load signedTarget 3 appleBatch 0 = .ok st
        ∧ Consecutive 0 st.runs appleBatch.length
        ∧ (∀ (i : Nat) (run : Nat × Nat), st.runs[i]? = some run →
            ∃ p, st.heap[i]? = some p ∧ decodePage p = some (runEntries appleBatch run))
        ∧ ∀ run ∈ st.runs, ∀ A, appleBatch[run.1]? = some A →
            ∀ j x, run.1 ≤ j → appleBatch[j]? = some x →
              (j ≤ run.2 ↔ x.2.take (min 3 (cLen A.2)) = A.2.take (min 3 (cLen A.2))) :=
  ⟨by decide, by decide, Or.inr (by simp [appleBatch]; decide),
    load_partition signedTarget 3 appleBatch 0 (by decide) (by decide)
      (Or.inr (by simp [appleBatch]; decide))⟩

/-- C3 fails as stated: for the sorted batch `a`, `ab`, `ac` and prefix limit `2`, on
either target, `load` builds the single page `[0, 2]`, so the adjacent entries `a` and
`ab` land in the same page although they do not agree on their first `2` bytes. -/
theorem load_partition_counterexample :
    SortedBatch shortBatch
      ∧ (load signedTarget 2 shortBatch 0).map (fun st => st.runs) = .ok [(0, 2)]
      ∧ (load unsignedTarget 2 shortBatch 0).map (fun st => st.runs) = .ok [(0, 2)]
      ∧ ([97] : Str).take 2 ≠ ([97, 98] : Str).take 2 :=
  ⟨by decide, rfl, rfl, by decide⟩

/-- C20 (binary-search monotonicity): in every execution of `findBlock` with `size >= 1`,
sorted or not, every state of the loop has `biggestFound <= start`, so a matching probe
`middle >= start` passes the DEBUG assertion `middle >= biggestFound` and the value it
assigns to `biggestFound` is not below the previous one; `findBlock` never fails the
assertion nor uses up its budget of `size` iterations (the only fault left is a read out
of bounds), and an index it returns lies in `[0, size - 1]`. -/
theorem findBlock_monotone (t : Target) (sc : Byte) (p size : Nat) (values : List Entry)
    (eos0 : Bool) (hsize : 1 ≤ size) :
    (∀ s e b eos, FindReach t sc p size values eos0 s e b eos →
        b ≤ s ∧ e ≤ size - 1 ∧ (s < e → b ≤ (e + s) / 2 ∧ (e + s) / 2 ≤ size - 1))
    ∧ (∀ f, findBlock t sc p size values eos0 = .error f → f = Fault.outOfBounds)
    ∧ (∀ r eos, findBlock t sc p size values eos0 = .ok (r, eos) → r ≤ size - 1) := by
  refine ⟨?_, findBlock_error t sc p size values eos0, ?_⟩
  · intro s e b eos h
    have := findReach_bounds h
    refine ⟨this.1, this.2.2.1, fun hlt => ?_⟩
    omega
  · intro r eos h
    have := ((findBlock_sound t sc p size values eos0 hsize).1 r eos h).1
    omega

/-- Witness of C20: the run `apple`, `apply`, `apt`, search byte `a`, offset `0`. -/
theorem findBlock_monotone_witness :
    1 ≤ 3
    ∧ (∀ s e b eos, FindReach signedTarget 97 0 3 appleBatch false s e b eos →
        b ≤ s ∧ e ≤ 3 - 1 ∧ (s < e → b ≤ (e + s) / 2 ∧ (e + s) / 2 ≤ 3 - 1))
    ∧ (∀ f, findBlock signedTarget 97 0 3 appleBatch false = .error f → f = Fault.outOfBounds)
    ∧ (∀ r eos, findBlock signedTarget 97 0 3 appleBatch false = .ok (r, eos) → r ≤ 3 - 1) :=
  ⟨by decide, findBlock_monotone signedTarget 97 0 3 appleBatch false (by decide)⟩

/-- C19 (the end-of-string flag is never raised on valid input): on a non-empty sorted
batch, for every prefix limit and target, `load` returns, and for the cursor of each of
its iterations no state of the offset loop has `endOfString` set, so no call of
`findBlock` made by `load` sets it; the offset loop ends, with the end of the range of
the iteration, in a state where the offset has reached the prefix limit or the anchor
reads as the terminator. -/
theorem load_endOfString (t : Target) (K : Nat) (values : List Entry) (c0 : Nat)
    (hne : values ≠ []) (hs : SortedBatch values) :
    ∃ st, load t K values c0 = .ok st
      ∧ ∀ run ∈ st.runs,
          (∀ pos e eos, SearchReach t K values run.1 pos e eos → eos = false)
          ∧ ∃ pos, SearchReach t K values run.1 pos run.2 false
              ∧ (K ≤ pos ∨ readChar values run.1 pos = .ok 0) := by
  obtain ⟨st, hst⟩ := (load_spec t K values c0).2.2 hne hs
  obtain ⟨lp, hI⟩ := (load_spec t K values c0).1 st hst
  refine ⟨st, hst, ?_⟩
  intro run hrun
  have hv := loadInv_runs_valid hI run hrun
  have hlt : run.1 < values.length := by omega
  have hall : ∀ pos e eos, SearchReach t K values run.1 pos e eos → eos = false :=
    fun pos e eos hr => (searchReach_inv hs (List.getElem?_eq_getElem hlt) hr).eos
  refine ⟨hall, ?_⟩
  obtain ⟨pos, eos, hr, hstop⟩ := searchLoop_reach t K values run.1 run.2 (hI.search run hrun)
  have heos := hall pos run.2 eos hr
  subst heos
  refine ⟨pos, hr, ?_⟩
  rcases hstop with h | h | h
  · exact Or.inl h
  · cases h
  · exact Or.inr h

/-- Witness of C19: the batch `apple`, `apply`, `apt` with prefix limit `3`. -/
theorem load_endOfString_witness :
    appleBatch ≠ [] ∧ SortedBatch appleBatch
      ∧ ∃ st, load signedTarget 3 appleBatch 0 = .ok st
        ∧ ∀ run ∈ st.runs,
            (∀ pos e eos, SearchReach signedTarget 3 appleBatch run.1 pos e eos → eos = false)
            ∧ ∃ pos, SearchReach signedTarget 3 appleBatch run.1 pos run.2 false
                ∧ (3 ≤ pos ∨ readChar appleBatch run.1 pos = .ok 0) :=
  ⟨by decide, by decide, load_endOfString signedTarget 3 appleBatch 0 (by decide) (by decide)⟩

/-- C18 (in-bounds character access): on a non-empty sorted batch, for every prefix limit
and target, `load` returns, that is, none of the reads `values[i]` and
`values[i].second[p]` made by `load`, `findBlock` and `createPage` is out of bounds (a
read returns exactly when `i` is inside the batch and `p` is at most the length of the
string).  The reason: in every state of the offset loop for the cursor of an iteration,
the candidate run `[start, end]` lies inside the batch and each of its entries shares the
first `searchPos` bytes of the anchor, none of them a terminator, so its length is at
least `searchPos`. -/
theorem load_inBounds (t : Target) (K : Nat) (values : List Entry) (c0 : Nat)
    (hne : values ≠ []) (hs : SortedBatch values) :
    (∃ st, load t K values c0 = .ok st
      ∧ ∀ run ∈ st.runs, ∀ A, values[run.1]? = some A →
          ∀ pos e eos, SearchReach t K values run.1 pos e eos →
            run.1 ≤ e ∧ e ≤ values.length - 1 ∧ pos ≤ cLen A.2
            ∧ ∀ j x, run.1 ≤ j → j ≤ e → values[j]? = some x →
                x.2.take pos = A.2.take pos ∧ pos ≤ x.2.length)
    ∧ (∀ (vs : List Entry) (i p : Nat),
        (∃ c, readChar vs i p = .ok c) ↔ ∃ x, vs[i]? = some x ∧ p ≤ x.2.length)
    ∧ (∀ (vs : List Entry) (i : Nat), (∃ e, entryAt vs i = .ok e) ↔ i < vs.length) := by
  refine ⟨?_, readChar_ok_iff, entryAt_ok_iff⟩
  obtain ⟨st, hst⟩ := (load_spec t K values c0).2.2 hne hs
  refine ⟨st, hst, ?_⟩
  intro run _ A hA pos e eos hr
  have hI := searchReach_inv hs hA hr
  refine ⟨hI.lo, hI.hi, hI.posLen, ?_⟩
  intro j x hj1 hj2 hx
  have hag := hI.agree j x hj1 hj2 hx
  have hl := cLen_le_length A.2
  exact ⟨hag, length_ge_of_take_eq hag (by have := hI.posLen; omega)⟩

/-- Witness of C18: the batch `apple`, `apply`, `apt` with prefix limit `3`. -/
theorem load_inBounds_witness :
    appleBatch ≠ [] ∧ SortedBatch appleBatch
      ∧ (∃ st, load signedTarget 3 appleBatch 0 = .ok st
        ∧ ∀ run ∈ st.runs, ∀ A, appleBatch[run.1]? = some A →
            ∀ pos e eos, SearchReach signedTarget 3 appleBatch run.1 pos e eos →
              run.1 ≤ e ∧ e ≤ appleBatch.length - 1 ∧ pos ≤ cLen A.2
              ∧ ∀ j x, run.1 ≤ j → j ≤ e → appleBatch[j]? = some x →
                  x.2.take pos = A.2.take pos ∧ pos ≤ x.2.length)
      ∧ (∀ (vs : List Entry) (i p : Nat),
          (∃ c, readChar vs i p = .ok c) ↔ ∃ x, vs[i]? = some x ∧ p ≤ x.2.length)
      ∧ (∀ (vs : List Entry) (i : Nat), (∃ e, entryAt vs i = .ok e) ↔ i < vs.length) :=
  ⟨by decide, by decide, load_inBounds signedTarget 3 appleBatch 0 (by decide) (by decide)⟩

/-- C16, as the code has it (shared page prefix): on a non-empty sorted batch, for every
prefix limit `K` and target, `load` returns, and every entry of a page agrees with the
page's anchor on its first `min K m` bytes, `m` being the number of bytes of the anchor
before its first zero byte, which is the length of the anchor when it holds no zero
byte; so the shared-prefix length `L` of every entry of the page against the anchor is at
least `min K m`. -/
theorem load_sharedPrefix (t : Target) (K : Nat) (values : List Entry) (c0 : Nat)
    (hne : values ≠ []) (hs : SortedBatch values) :
    ∃ st, load t K values c0 = .ok st
      ∧ ∀ run ∈ st.runs, ∀ A, values[run.1]? = some A →
          ((0 : Byte) ∉ A.2 → cLen A.2 = A.2.length)
          ∧ ∀ j x, run.1 ≤ j → j ≤ run.2 → values[j]? = some x →
              x.2.take (min K (cLen A.2)) = A.2.take (min K (cLen A.2))
              ∧ min K (cLen A.2) ≤ (delta A.2 x.2).2 := by
  obtain ⟨st, hst⟩ := (load_spec t K values c0).2.2 hne hs
  obtain ⟨lp, hI⟩ := (load_spec t K values c0).1 st hst
  refine ⟨st, hst, ?_⟩
  intro run hrun A hA
  refine ⟨cLen_eq_length A.2, ?_⟩
  intro j x hj1 hj2 hx
  have hv := loadInv_runs_valid hI run hrun
  obtain ⟨e', he', hS⟩ := searchLoop_sorted t K values run.1 (values.length - 1) A hs hA
    (by omega) (by omega)
  rw [hI.search run hrun] at he'
  cases he'
  have hag := hS.agree j x hj1 hj2 hx
  have hl := cLen_le_length A.2
  exact ⟨hag, le_commonPrefixLen_of_take_eq _ A.2 x.2 hag (by omega)⟩

/-- Witness of C16 as amended: the batch `apple`, `apply`, `apt` with prefix limit `3`. -/
theorem load_sharedPrefix_witness :
    appleBatch ≠ [] ∧ SortedBatch appleBatch
      ∧ ∃ st, load signedTarget 3 appleBatch 0 = .ok st
        ∧ ∀ run ∈ st.runs, ∀ A, appleBatch[run.1]? = some A →
            ((0 : Byte) ∉ A.2 → cLen A.2 = A.2.length)
            ∧ ∀ j x, run.1 ≤ j → j ≤ run.2 → appleBatch[j]? = some x →
                x.2.take (min 3 (cLen A.2)) = A.2.take (min 3 (cLen A.2))
                ∧ min 3 (cLen A.2) ≤ (delta A.2 x.2).2 :=
  ⟨by decide, by decide, load_sharedPrefix signedTarget 3 appleBatch 0 (by decide) (by decide)⟩

/-- C16 fails as stated: for the sorted batch of the strings `61 00 62` and `61 00 63`
(length `3`) and prefix limit `3`, on either target, `load` builds the single page
`[0, 1]`; its second entry does not agree with the anchor on the first `min 3 3 = 3`
bytes, and its shared-prefix length is `2 < 3`. -/
theorem load_sharedPrefix_counterexample :
    SortedBatch nulBatch
      ∧ (load signedTarget 3 nulBatch 0).map (fun st => st.runs) = .ok [(0, 1)]
      ∧ (load unsignedTarget 3 nulBatch 0).map (fun st => st.runs) = .ok [(0, 1)]
      ∧ ([97, 0, 99] : Str).take (min 3 ([97, 0, 98] : Str).length)
          ≠ ([97, 0, 98] : Str).take (min 3 ([97, 0, 98] : Str).length)
      ∧ (delta ([97, 0, 98] : Str) [97, 0, 99]).2 = 2 :=
  ⟨by decide, rfl, rfl, by decide, rfl⟩

/-- C17, as the code has it (short anchor): take a non-empty batch.  When it is sorted and
`char` compares as its byte value, `load` returns, and for every iteration whose anchor
has `m < K` bytes before its first zero byte (`m` is the length of the anchor when it
holds no zero byte) the offset loop ends at offset `m`, where the anchor reads as the
terminator, and the page is the maximal run, from the anchor on, of the entries that
share the first `m` bytes of the anchor.  When the first string of the batch is empty,
sorted or not, `load` builds exactly one page, which holds the whole batch, whatever the
prefix limit and the other strings. -/
theorem load_shortAnchor (t : Target) (K : Nat) (values : List Entry) (c0 : Nat)
    (hne : values ≠ []) :
    (SortedBatch values → LowBytes t values →
      ∃ st, load t K values c0 = .ok st
        ∧ ∀ run ∈ st.runs, ∀ A, values[run.1]? = some A → cLen A.2 < K →
            ((0 : Byte) ∉ A.2 → cLen A.2 = A.2.length)
            ∧ SearchReach t K values run.1 (cLen A.2) run.2 false
            ∧ readChar values run.1 (cLen A.2) = .ok 0
            ∧ ∀ j x, run.1 ≤ j → values[j]? = some x →
                (j ≤ run.2 ↔ x.2.take (cLen A.2) = A.2.take (cLen A.2)))
    ∧ (∀ A, values[0]? = some A → A.2 = [] →
        ∃ st page, load t K values c0 = .ok st ∧ st.runs = [(0, values.length - 1)]
          ∧ st.heap = [page] ∧ page.nextPage = none ∧ decodePage page = some values) := by
  refine ⟨?_, ?_⟩
  · intro hs hlow
    obtain ⟨st, hst⟩ := (load_spec t K values c0).2.2 hne hs
    obtain ⟨lp, hI⟩ := (load_spec t K values c0).1 st hst
    refine ⟨st, hst, ?_⟩
    intro run hrun A hA hshort
    have hmin : min K (cLen A.2) = cLen A.2 := by omega
    obtain ⟨pos, eos, hr, hstop⟩ := searchLoop_reach t K values run.1 run.2
      (hI.search run hrun)
    have hS := searchReach_inv hs hA hr
    have heos := hS.eos
    subst heos
    have hzero : readChar values run.1 pos = .ok 0 := by
      rcases hstop with h | h | h
      · have := hS.posLen; omega
      · cases h
      · exact h
    have hpos : pos = cLen A.2 := by
      obtain ⟨x, hx, hch⟩ := readChar_ok hzero
      rw [hA] at hx; cases hx
      exact eq_cLen_of_zero A.2 pos hS.posLen hch
    subst hpos
    refine ⟨cLen_eq_length A.2, hr, hzero, ?_⟩
    intro j x hj hx
    have := loadInv_partition hI hs hlow run hrun A hA j x hj hx
    rw [hmin] at this
    exact this
  · intro A hA hempty
    obtain ⟨st, page, h1, h2, h3, h4, h5, _⟩ := load_emptyFirst t K values c0 A hA hempty
    exact ⟨st, page, h1, h2, h3, h4, h5⟩

/-- Witness of C17 as amended: the batch of the empty string and `a` with prefix limit
`2`. -/
theorem load_shortAnchor_witness :
    emptyFirstBatch ≠ []
    ∧ (SortedBatch emptyFirstBatch → LowBytes signedTarget emptyFirstBatch →
      ∃ st, load signedTarget 2 emptyFirstBatch 0 = .ok st
        ∧ ∀ run ∈ st.runs, ∀ A, emptyFirstBatch[run.1]? = some A → cLen A.2 < 2 →
            ((0 : Byte) ∉ A.2 → cLen A.2 = A.2.length)
            ∧ SearchReach signedTarget 2 emptyFirstBatch run.1 (cLen A.2) run.2 false
            ∧ readChar emptyFirstBatch run.1 (cLen A.2) = .ok 0
            ∧ ∀ j x, run.1 ≤ j → emptyFirstBatch[j]? = some x →
                (j ≤ run.2 ↔ x.2.take (cLen A.2) = A.2.take (cLen A.2)))
    ∧ (∀ A, emptyFirstBatch[0]? = some A → A.2 = [] →
        ∃ st page, load signedTarget 2 emptyFirstBatch 0 = .ok st
          ∧ st.runs = [(0, emptyFirstBatch.length - 1)]
          ∧ st.heap = [page] ∧ page.nextPage = none
          ∧ decodePage page = some emptyFirstBatch) :=
  ⟨by decide, load_shortAnchor signedTarget 2 emptyFirstBatch 0 (by decide)⟩

/-- C17 fails as stated: for the sorted batch of the strings `61 00` and `61 01` and
prefix limit `3`, the entry at the cursor has length `2 < 3`, yet on either target `load`
builds the single page `[0, 1]`, while the entries selected by the first `2` bytes of the
anchor are the anchor alone: the second entry does not share them. -/
theorem load_shortAnchor_counterexample :
    SortedBatch nulShortBatch
      ∧ (load signedTarget 3 nulShortBatch 0).map (fun st => st.runs) = .ok [(0, 1)]
      ∧ (load unsignedTarget 3 nulShortBatch 0).map (fun st => st.runs) = .ok [(0, 1)]
      ∧ ([97, 0] : Str).length = 2
      ∧ ([97, 1] : Str).take 2 ≠ ([97, 0] : Str).take 2 :=
  ⟨by decide, rfl, rfl, rfl, by decide⟩

/-- C14 (non-empty pages): on every non-empty batch and for every prefix limit, no call
`load` makes to `createPage` fails the assertion `size > 0` (`load` fails only by a read
out of bounds, which a sorted batch excludes); when `load` returns, every iteration has
`start <= end < n`, so the size `end - start + 1` it passes is the number of entries of
the range and at least `1`, and the page built for it begins with the first entry of the
range, `values[start]`, stored literally: header, identifier, length and all bytes. -/
theorem load_nonEmptyPages (t : Target) (K : Nat) (values : List Entry) (c0 : Nat)
    (hne : values ≠ []) :
    (∀ f, load t K values c0 = .error f → f = Fault.outOfBounds)
    ∧ (SortedBatch values → ∃ st, load t K values c0 = .ok st)
    ∧ ∀ st, load t K values c0 = .ok st →
        st.heap.length = st.runs.length
        ∧ ∀ (i : Nat) (run : Nat × Nat), st.runs[i]? = some run →
            run.1 ≤ run.2 ∧ run.2 < values.length
            ∧ (runEntries values run).length = run.2 - run.1 + 1
            ∧ 1 ≤ run.2 - run.1 + 1
            ∧ ∃ page A rest, st.heap[i]? = some page ∧ values[run.1]? = some A
                ∧ page.data = [Field.header Header.startOfPrefix, Field.id A.1,
                    Field.stringSize A.2.length, Field.chars A.2] ++ rest := by
  refine ⟨(load_spec t K values c0).2.1, (load_spec t K values c0).2.2 hne, ?_⟩
  intro st hst
  obtain ⟨lp, hI⟩ := (load_spec t K values c0).1 st hst
  refine ⟨hI.len, ?_⟩
  intro i run hrun
  have hv := loadInv_runs_valid hI run (List.mem_iff_getElem?.2 ⟨i, hrun⟩)
  have hlt : run.1 < values.length := by omega
  refine ⟨hv.1, hv.2, ?_, by omega, ?_⟩
  · simp only [runEntries, List.length_take, List.length_drop]; omega
  · obtain ⟨page, _, hpb, hbp⟩ := builtPage_spec t values i run
      (if i + 1 < st.runs.length then some (i + 1) else none) hv.1 hv.2
    have hA : values[run.1]? = some values[run.1] := List.getElem?_eq_getElem hlt
    refine ⟨_, values[run.1],
      encodeDeltas values[run.1].2 (((values.drop run.1).take (run.2 - run.1 + 1)).drop 1)
        ++ [Field.header Header.endOfPage],
      hI.heap i run hrun, hA, ?_⟩
    rw [hbp]
    have hd := hpb.data
    have hre := runEntries_cons values run _ hA
    simp only [runEntries] at hre
    rw [hre] at hd
    simp only [hd, pageData, anchorFields, List.append_assoc]

/-- Witness of C14: the batch `apple`, `apply`, `apt` with prefix limit `3`. -/
theorem load_nonEmptyPages_witness :
    appleBatch ≠ []
    ∧ (∀ f, load signedTarget 3 appleBatch 0 = .error f → f = Fault.outOfBounds)
    ∧ (SortedBatch appleBatch → ∃ st, load signedTarget 3 appleBatch 0 = .ok st)
    ∧ ∀ st, load signedTarget 3 appleBatch 0 = .ok st →
        st.heap.length = st.runs.length
        ∧ ∀ (i : Nat) (run : Nat × Nat), st.runs[i]? = some run →
            run.1 ≤ run.2 ∧ run.2 < appleBatch.length
            ∧ (runEntries appleBatch run).length = run.2 - run.1 + 1
            ∧ 1 ≤ run.2 - run.1 + 1
            ∧ ∃ page A rest, st.heap[i]? = some page ∧ appleBatch[run.1]? = some A
                ∧ page.data = [Field.header Header.startOfPrefix, Field.id A.1,
                    Field.stringSize A.2.length, Field.chars A.2] ++ rest :=
  ⟨by decide, load_nonEmptyPages signedTarget 3 appleBatch 0 (by decide)⟩

/-- C15 (order preservation): on every non-empty batch and for every prefix limit, when
`load` returns (it does on a sorted batch) its pages are built for index ranges
`[s1, e1], [s2, e2], ...` with `s1 = 0`, `s(i+1) = ei + 1`, `si <= ei` and the last
`e = n - 1`; the callback invocations are those of the pages in building order, each page
reporting the entries of its range in order, so the sequence of (identifier, string)
pairs reported over the whole `load` is the input batch in its original order. -/
theorem load_orderPreserved (t : Target) (K : Nat) (values : List Entry) (c0 : Nat)
    (hne : values ≠ []) :
    (SortedBatch values → ∃ st, load t K values c0 = .ok st)
    ∧ ∀ st, load t K values c0 = .ok st →
        Consecutive 0 st.runs values.length
        ∧ (∃ e, st.runs.head? = some (0, e))
        ∧ (∃ s, st.runs.getLast? = some (s, values.length - 1))
        ∧ (∀ run ∈ st.runs, run.1 ≤ run.2 ∧ run.2 < values.length)
        ∧ st.calls = callsOf t values 0 st.runs
        ∧ (∀ (i : Nat) (run : Nat × Nat), st.runs[i]? = some run →
            (pageCalls t values i run).map (fun c => (c.id, c.value)) = runEntries values run)
        ∧ (st.runs.map (runEntries values)).flatten = values
        ∧ st.calls.map (fun c => (c.id, c.value)) = values := by
  refine ⟨(load_spec t K values c0).2.2 hne, ?_⟩
  intro st hst
  obtain ⟨lp, hI⟩ := (load_spec t K values c0).1 st hst
  have hvalid := loadInv_runs_valid hI
  have hjoin := join_runEntries values st.runs 0 hI.runs
  rw [List.drop_zero] at hjoin
  refine ⟨hI.runs, ?_, consecutive_getLast st.runs 0 values.length hI.runs
    (loadInv_runs_ne_nil hI hne), hvalid, hI.calls, ?_, hjoin, ?_⟩
  · have h0 := hI.runs
    cases hr : st.runs with
    | nil => exact absurd hr (loadInv_runs_ne_nil hI hne)
    | cons r rest =>
      obtain ⟨a, b⟩ := r
      rw [hr] at h0
      simp only [Consecutive] at h0
      exact ⟨b, by rw [h0.1]; rfl⟩
  · intro i run hrun
    have hv := hvalid run (List.mem_iff_getElem?.2 ⟨i, hrun⟩)
    obtain ⟨page, _, hpb, _⟩ := builtPage_spec t values i run none hv.1 hv.2
    exact hpb.entries
  · rw [hI.calls, callsOf_entries t values st.runs 0 hvalid, hjoin]

/-- Witness of C15: the batch `apple`, `apply`, `apt` with prefix limit `3`. -/
theorem load_orderPreserved_witness :
    appleBatch ≠ []
    ∧ (SortedBatch appleBatch → ∃ st, load signedTarget 3 appleBatch 0 = .ok st)
    ∧ ∀ st, load signedTarget 3 appleBatch 0 = .ok st →
        Consecutive 0 st.runs appleBatch.length
        ∧ (∃ e, st.runs.head? = some (0, e))
        ∧ (∃ s, st.runs.getLast? = some (s, appleBatch.length - 1))
        ∧ (∀ run ∈ st.runs, run.1 ≤ run.2 ∧ run.2 < appleBatch.length)
        ∧ st.calls = callsOf signedTarget appleBatch 0 st.runs
        ∧ (∀ (i : Nat) (run : Nat × Nat), st.runs[i]? = some run →
            (pageCalls signedTarget appleBatch i run).map (fun c => (c.id, c.value))
              = runEntries appleBatch run)
        ∧ (st.runs.map (runEntries appleBatch)).flatten = appleBatch
        ∧ st.calls.map (fun c => (c.id, c.value)) = appleBatch :=
  ⟨by decide, load_orderPreserved signedTarget 3 appleBatch 0 (by decide)⟩

/-- C13 at its failing input: for the page of the single entry `(0, "a")`, `createPage`
invokes the callback for the anchor when the buffer holds the anchor's header only; the
identifier and the string bytes, which the finished page has at the reported payload
offset `9`, are written after the call. -/
theorem createPage_callbackOrder_failing :
    createPage signedTarget 0 1 [(0, [97])]
      = .ok (⟨none, [Field.header Header.startOfPrefix, Field.id 0, Field.stringSize 1,
                Field.chars [97], Field.header Header.endOfPage], 27, 27⟩,
             [⟨0, 0, 9, 0, [97], [Field.header Header.startOfPrefix]⟩]) :=
  rfl

end DynamicPage

namespace MARTDictionary

open DynamicPage (Str Fault)

/-! ## The claims on the dictionary -/

theorem consistent_empty : Consistent empty := by
  intro v id h
  simp [lookup, empty, mapLookup] at h

theorem insert_found {d : MARTDictionary} {value : Str} {id : Nat}
    (h : lookup d value = some id) : insert d value = (id, d) := by
  unfold lookup at h
  simp only [insert, h]

theorem insert_new {d : MARTDictionary} {value : Str} (h : lookup d value = none) :
    insert d value = (d.nextId, ⟨(d.nextId, value) :: d.index,
      (value, d.nextId) :: d.reverseIndex, d.nextId + 1⟩) := by
  unfold lookup at h
  simp only [insert, h, mapInsert]

theorem lookup_insert_self (d : MARTDictionary) (value : Str) :
    lookup (insert d value).2 value = some (insert d value).1 := by
  cases h : lookup d value with
  | none => simp [insert_new h, lookup, mapLookup]
  | some id => rw [insert_found h]; exact h

theorem lookup_insert_of_lookup {d : MARTDictionary} {v : Str} {id : Nat} (w : Str)
    (h : lookup d v = some id) : lookup (insert d w).2 v = some id := by
  cases hw : lookup d w with
  | none =>
    have hne : v ≠ w := by
      intro hvw; rw [hvw, hw] at h; cases h
    rw [insert_new hw]
    simp only [lookup, mapLookup, hne, if_false]
    exact h
  | some id' => rw [insert_found hw]; exact h

theorem consistent_insert {d : MARTDictionary} (hd : Consistent d) (w : Str) :
    Consistent (insert d w).2 := by
  cases hw : lookup d w with
  | some id' => rw [insert_found hw]; exact hd
  | none =>
    rw [insert_new hw]
    intro v id h
    simp only [lookup, mapLookup] at h
    by_cases hvw : v = w
    · simp only [hvw, if_true, Option.some.injEq] at h
      subst h
      subst hvw
      exact ⟨Nat.lt_succ_self _, by simp [lookupId, mapLookup]⟩
    · simp only [hvw, if_false] at h
      obtain ⟨h1, h2⟩ := hd v id h
      refine ⟨Nat.lt_succ_of_lt h1, ?_⟩
      have hne : id ≠ d.nextId := by omega
      simp only [lookupId, mapLookup, hne, if_false]
      exact h2

theorem consistent_insertAll : ∀ (values : List Str) (d : MARTDictionary),
    Consistent d → Consistent (insertAll d values)
  | [], _, hd => hd
  | w :: ws, d, hd => consistent_insertAll ws (insert d w).2 (consistent_insert hd w)

theorem lookup_insertAll_of_lookup : ∀ (values : List Str) (d : MARTDictionary) (v : Str)
    (id : Nat), lookup d v = some id → lookup (insertAll d values) v = some id
  | [], _, _, _, h => h
  | w :: ws, d, v, id, h =>
    lookup_insertAll_of_lookup ws (insert d w).2 v id (lookup_insert_of_lookup w h)

theorem lookup_insertAll_mem : ∀ (values : List Str) (d : MARTDictionary) (v : Str),
    v ∈ values → ∃ id, lookup (insertAll d values) v = some id
  | [], _, _, h => by simp at h
  | w :: ws, d, v, h => by
    simp only [List.mem_cons] at h
    rcases h with h | h
    · subst h
      exact ⟨_, lookup_insertAll_of_lookup ws (insert d v).2 v _ (lookup_insert_self d v)⟩
    · exact lookup_insertAll_mem ws (insert d w).2 v h

/-- C11 (`insert` assigns sequential identifiers without duplicates): in every dictionary
`d`, when `value` is in the reverse index `insert` returns its stored identifier and
leaves the dictionary as it is; otherwise it binds `value` to `nextId` in the reverse
index and `nextId` to `value` in the forward index, returns the old `nextId` and
increases `nextId` by one.  So a second `insert` of the same value returns the same
identifier and changes nothing, and after inserting any sequence of values into the empty
dictionary every inserted value `v` has an identifier that the forward index maps back to
`v`. -/
theorem insert_sequential (d : MARTDictionary) (values : List Str) (value : Str) :
    (∀ id, lookup d value = some id → insert d value = (id, d))
    ∧ (lookup d value = none →
        insert d value = (d.nextId, ⟨(d.nextId, value) :: d.index,
          (value, d.nextId) :: d.reverseIndex, d.nextId + 1⟩)
        ∧ lookup (insert d value).2 value = some d.nextId
        ∧ lookupId (insert d value).2 d.nextId = some value)
    ∧ insert (insert d value).2 value = ((insert d value).1, (insert d value).2)
    ∧ (∀ v ∈ values, ∃ id, lookup (insertAll empty values) v = some id
        ∧ lookupId (insertAll empty values) id = some v) := by
  refine ⟨fun id h => insert_found h, ?_, insert_found (lookup_insert_self d value), ?_⟩
  · intro h
    refine ⟨insert_new h, ?_, ?_⟩
    · rw [insert_new h]; simp [lookup, mapLookup]
    · rw [insert_new h]; simp [lookupId, mapLookup]
  · intro v hv
    obtain ⟨id, hid⟩ := lookup_insertAll_mem values empty v hv
    exact ⟨id, hid, (consistent_insertAll values empty consistent_empty v id hid).2⟩

/-- From the empty dictionary `bulkInsert` returns `true` with `nextId = size` and leaves
the forward index empty: the first loop has advanced `nextId` to `size`, so the second
loop, guarded by `nextId < size`, does not run. -/
theorem bulkInsert_empty
    (rbi : List (Str × Nat) → Nat → List Str → List (Str × Nat)) (size : Nat)
    (values : List Str) (h : size ≤ values.length) :
    bulkInsert rbi empty size values = .ok (true, ⟨[], rbi [] size values, size⟩) := by
  obtain ⟨r, hr, hI⟩ := DynamicPage.foldlM_range'_inv
    (fun (acc : Nat × List (Nat × Str)) i =>
      match values[i]? with
      | some v => (pure (acc.1 + 1, acc.2 ++ [(acc.1, v)]) : Except Fault _)
      | none => throw Fault.outOfBounds)
    (fun i acc => acc.1 = i) size 0 (0, []) rfl
    (by
      intro i b _ hi hb
      have hil : i < values.length := by omega
      refine ⟨(b.1 + 1, b.2 ++ [(b.1, values[i])]), ?_, ?_⟩
      · simp only [List.getElem?_eq_getElem hil]
        rfl
      · simp [hb])
  have hcl : collectLoop values size 0 = .ok r := hr
  have hr1 : r.1 = size := by simpa using hI
  have hil : indexLoop values size size r.1 [] = .ok (size, []) := by
    rw [hr1]
    unfold indexLoop
    simp [pure, Except.pure]
  obtain ⟨n, l⟩ := r
  simp only [bulkInsert, empty, if_true, hcl]
  simp only at hil
  simp only [hil, pure, Except.pure]

/-- C12 at its failing input: `bulkInsert(1, {"a"})` on the empty dictionary returns
`true` with `nextId = 1`, but the forward index has received no insertion, so
`lookup(0, value)` returns `false` (and `lookup("a", id)` gives the identifier `0`). -/
theorem bulkInsert_failing :
    bulkInsert reverseBulkInsert empty 1 [[97]] = .ok (true, ⟨[], [([97], 0)], 1⟩)
      ∧ lookupId ⟨[], [([97], 0)], 1⟩ 0 = none
      ∧ lookup ⟨[], [([97], 0)], 1⟩ [97] = some 0 :=
  ⟨rfl, rfl, rfl⟩

end MARTDictionary
